import Mathlib

/-!
Shallow embedding of the rendering core of `src/generator/generator.cpp`
(Woboq code browser generator): the escapers, the sidecar line-annotation
loaders, the sidecar filename derivation, and the single-pass interval
renderer of `Generator::generate` (the `<table class="code">` body segment,
lines 261-384 of the source).

The renderer's output stream is modelled as a list of `OutItem` values, one
item per write to the output stream; `renderItem` maps each item to the exact
text the C++ writes.
-/

namespace Codebrowser

/-- A markup range over the source buffer, mirroring `Generator::Tag`:
a name, pre-escaped attribute text, a starting byte offset `pos` and a byte
length `len` (`len = 0` is a point marker). -/
structure Tag where
  name : String
  attributes : String
  pos : Nat
  len : Nat
deriving DecidableEq, Repr

/-- Opening markup of a tag, mirroring `Generator::Tag::open`:
`<name attributes>` when `len ≠ 0`, and the explicitly self-closed
`<name attributes></name>` when `len = 0`. -/
def Tag.openText (t : Tag) : String :=
  "<" ++ t.name ++ (if t.attributes.isEmpty then "" else " " ++ t.attributes) ++
    (if t.len ≠ 0 then ">" else "></" ++ t.name ++ ">")

/-- Closing markup of a tag, mirroring `Generator::Tag::close`: `</name>`. -/
def Tag.closeText (t : Tag) : String :=
  "</" ++ t.name ++ ">"

/-- One write to the output stream performed by the rendering loop of
`Generator::generate`. -/
inductive OutItem where
  /-- A verbatim run of buffer bytes written by `flush()`. -/
  | raw (s : List Char) : OutItem
  /-- An escape entity (`&amp;`, `&lt;` or `&gt;`) written for a reserved
  body byte. -/
  | entity (e : String) : OutItem
  /-- The opening markup of a tag (`Tag::open`). -/
  | openTag (t : Tag) : OutItem
  /-- The closing markup of a tag (`Tag::close`). -/
  | closeTag (t : Tag) : OutItem
  /-- The opening markup of the line container:
  `<tr STYLE ><th STYLE2 id="N">N</th><td>`. -/
  | lineHeader (line : Nat) (style style2 : String) : OutItem
  /-- The closing markup of the line container: `</td></tr>\n`. -/
  | lineFooter : OutItem
deriving DecidableEq, Repr

/-- The exact text each output item stands for in the generated file. -/
def renderItem : OutItem → String
  | .raw s => String.mk s
  | .entity e => e
  | .openTag t => t.openText
  | .closeTag t => t.closeText
  | .lineHeader n s1 s2 =>
      "<tr " ++ s1 ++ " ><th " ++ s2 ++ " id=\"" ++ toString n ++ "\">" ++
        toString n ++ "</th><td>"
  | .lineFooter => "</td></tr>\n"

/-- Concatenated text of a list of output items: the byte stream the C++
writes for them. -/
def renderItems : List OutItem → String
  | [] => ""
  | it :: rest => renderItem it ++ renderItems rest

/-- Attribute-context escaping of one character, mirroring the `switch` of
`Generator::escapeAttr`: the five reserved characters `<`, `>`, `&`, double
quote and single quote become entities, every other byte is kept. -/
def escapeAttrChar (c : Char) : List Char :=
  if c = '<' then "&lt;".data
  else if c = '>' then "&gt;".data
  else if c = '&' then "&amp;".data
  else if c = Char.ofNat 34 then "&quot;".data
  else if c = Char.ofNat 39 then "&apos;".data
  else [c]

/-- The function `Generator::escapeAttr`: apply `escapeAttrChar` to every byte in order. -/
def escapeAttr : List Char → List Char
  | [] => []
  | c :: rest => escapeAttrChar c ++ escapeAttr rest

/-- Whitespace as recognized by `std::istream` integer extraction
(`file >> a` skips these before parsing). -/
def isStreamSpace (c : Char) : Bool :=
  c = ' ' || c = '\n' || c = '\t' || c = '\r' || c = Char.ofNat 11 || c = Char.ofNat 12

/-- Digits of one decimal integer: longest digit run at the front. -/
def takeDigits (cs : List Char) : List Char × List Char :=
  match cs with
  | [] => ([], [])
  | c :: rest =>
    if c.isDigit then
      let r := takeDigits rest
      (c :: r.1, r.2)
    else ([], c :: rest)

/-- Numeric value of a digit run. -/
def digitsVal : List Char → Nat → Nat
  | [], acc => acc
  | c :: rest, acc => digitsVal rest (acc * 10 + (c.toNat - 48))

/-- One `file >> a` extraction: skip whitespace, read an optional sign and a
nonempty digit run; `none` when extraction fails. -/
def readInt (cs : List Char) : Option (Int × List Char) :=
  let cs1 := cs.dropWhile isStreamSpace
  match cs1 with
  | [] => none
  | c :: rest =>
    if c = '-' then
      let d := takeDigits rest
      if d.1.isEmpty then none else some (-(digitsVal d.1 0 : Int), d.2)
    else if c = '+' then
      let d := takeDigits rest
      if d.1.isEmpty then none else some ((digitsVal d.1 0 : Int), d.2)
    else
      let d := takeDigits cs1
      if d.1.isEmpty then none else some ((digitsVal d.1 0 : Int), d.2)

/-- The `while (file >> a)` loop: extract integers until an extraction
fails. `fuel` bounds the recursion; `fuel = cs.length` suffices because each
successful extraction consumes at least one character. -/
def readIntsAux : Nat → List Char → List Int
  | 0, _ => []
  | fuel + 1, cs =>
    match readInt cs with
    | none => []
    | some (a, rest) => a :: readIntsAux fuel rest

/-- All integers extracted from a character stream. -/
def readInts (cs : List Char) : List Int :=
  readIntsAux cs.length cs

/-- The loader `Generator::getCommonLines`: open the file and append every extracted
integer. The file system is modelled by an `Option String`: `none` is a
missing file (every extraction on the failed stream fails), `some s` a file
with contents `s`. -/
def getCommonLines (file : Option String) : List Int :=
  match file with
  | none => []
  | some s => readInts s.data

/-- The loader `Generator::getCoveredLines`: same loop as `getCommonLines`. -/
def getCoveredLines (file : Option String) : List Int :=
  match file with
  | none => []
  | some s => readInts s.data

/-- A path separator as searched by `filename.find_last_of("\\/")`. -/
def isPathSep (c : Char) : Bool :=
  c = '/' || c = '\\'

/-- Index of the last `/` or `\` in the filename (`find_last_of`),
`none` when there is no separator (`std::string::npos`). -/
def findLastSep : List Char → Option Nat
  | [] => none
  | c :: rest =>
    match findLastSep rest with
    | some i => some (i + 1)
    | none => if isPathSep c then some 0 else none

/-- The `exactFilename` computation of `Generator::generate` (lines
274-279): the substring after the last `/` or `\`, or the whole filename
when there is none. -/
def exactFilename (filename : List Char) : List Char :=
  match findLastSep filename with
  | some i => filename.drop (i + 1)
  | none => filename

/-- Name of the common-lines sidecar file read by `generate`:
`exactFilename + ".common"`. -/
def commonSidecarName (filename : List Char) : List Char :=
  exactFilename filename ++ ".common".data

/-- Name of the covered-lines sidecar file read by `generate`:
`exactFilename + ".coverage"`. -/
def coverageSidecarName (filename : List Char) : List Char :=
  exactFilename filename ++ ".coverage".data

/-- Primary row style chosen in `generate`: aquamarine when the line number
is found in `commonLines`, lightcoral otherwise. -/
def lineStyle (commonLines : List Int) (line : Nat) : String :=
  if (line : Int) ∈ commonLines then "style=\"background-color:aquamarine;\""
  else "style=\"background-color:lightcoral;\""

/-- Secondary row style chosen in `generate`: gold when the line number is
found in `coveredLines`, empty otherwise. -/
def lineStyle2 (coveredLines : List Int) (line : Nat) : String :=
  if (line : Int) ∈ coveredLines then "style=\"background-color:gold;\"" else ""

/-- The `flush()` lambda: write the pending verbatim bytes
(`bufferStart .. c`) if there are any. -/
def flushItems (pending : List Char) : List OutItem :=
  if pending.isEmpty then [] else [OutItem.raw pending]

/-- The variable `next_end`: end offset of the innermost open tag (the stack top), or the
buffer end when the stack is empty. The stack is kept innermost-first. -/
def stackEnd (endPos : Nat) : List Tag → Nat
  | [] => endPos
  | t :: _ => t.pos + t.len

/-- The variable `next_start`: start offset of the next pending tag, or the buffer end
when the sorted tag list is exhausted. -/
def nextStart (endPos : Nat) : List Tag → Nat
  | [] => endPos
  | t :: _ => t.pos

/-- The tag-close loop of `generate` (lines 308-317): pop and close open
tags while the top's end offset is at or before the cursor; returns the
emitted closes and the remaining stack. -/
def popCloses (c : Nat) : List Tag → List OutItem × List Tag
  | [] => ([], [])
  | t :: rest =>
    if t.pos + t.len ≤ c then
      let r := popCloses c rest
      (OutItem.closeTag t :: r.1, r.2)
    else ([], t :: rest)

/-- The tag-open loop of `generate` (lines 321-331): while the next pending
tag starts at the cursor, emit its open markup and push it when its length
is nonzero; returns the emitted opens, the remaining pending tags, and the
new stack. -/
def processOpens (c : Nat) : List Tag → List Tag → List OutItem × List Tag × List Tag
  | [], stack => ([], [], stack)
  | t :: rest, stack =>
    if t.pos = c then
      let stack' := if t.len ≠ 0 then t :: stack else stack
      let r := processOpens c rest stack'
      (OutItem.openTag t :: r.1, r.2.1, r.2.2)
    else ([], t :: rest, stack)

/-- The whole event block at `c == next`: closes, then opens. Returns
(emitted items, remaining tags, new stack). -/
def doEvent (c : Nat) (tags stack : List Tag) : List OutItem × List Tag × List Tag :=
  let pc := popCloses c stack
  let po := processOpens c tags pc.2
  (pc.1 ++ po.1, po.2.1, po.2.2)

/-- The main rendering loop of `Generator::generate` (lines 305-384).
`remaining` is the buffer suffix from the cursor `c`; `pending` the
unflushed bytes `bufferStart .. c`; `tags` the pending sorted tags;
`stack` the open tags, innermost first.  At `c == next`
(`next = min(next_end, next_start)`) the pending text is flushed and the
close/open event loops run; then the byte at the cursor is dispatched:
`\n` closes every open tag innermost-first, ends the row, opens the next
styled row and reopens the tags outermost-first; `&`, `<`, `>` are written
as entities; every other byte joins the pending verbatim run. At the end of
the buffer the pending text is flushed, the close loop runs once more and
the final `</td></tr>\n` is written. -/
def generateLoop (endPos : Nat) (cm cv : List Int) :
    List Char → Nat → List Char → Nat → List Tag → List Tag → List OutItem
  | [], c, pending, _line, _tags, stack =>
    flushItems pending ++ (popCloses c stack).1 ++ [OutItem.lineFooter]
  | ch :: rest, c, pending, line, tags, stack =>
    let st :=
      if c = min (stackEnd endPos stack) (nextStart endPos tags) then
        let ev := doEvent c tags stack
        (flushItems pending ++ ev.1, ([] : List Char), ev.2.1, ev.2.2)
      else
        (([] : List OutItem), pending, tags, stack)
    st.1 ++
      (if ch = '\n' then
        flushItems st.2.1 ++ st.2.2.2.map OutItem.closeTag ++
          [OutItem.lineFooter,
           OutItem.lineHeader (line + 1) (lineStyle cm (line + 1))
             (lineStyle2 cv (line + 1))] ++
          st.2.2.2.reverse.map OutItem.openTag ++
          generateLoop endPos cm cv rest (c + 1) [] (line + 1) st.2.2.1 st.2.2.2
      else if ch = '&' then
        flushItems st.2.1 ++ [OutItem.entity "&amp;"] ++
          generateLoop endPos cm cv rest (c + 1) [] line st.2.2.1 st.2.2.2
      else if ch = '<' then
        flushItems st.2.1 ++ [OutItem.entity "&lt;"] ++
          generateLoop endPos cm cv rest (c + 1) [] line st.2.2.1 st.2.2.2
      else if ch = '>' then
        flushItems st.2.1 ++ [OutItem.entity "&gt;"] ++
          generateLoop endPos cm cv rest (c + 1) [] line st.2.2.1 st.2.2.2
      else
        generateLoop endPos cm cv rest (c + 1) (st.2.1 ++ [ch]) line st.2.2.1 st.2.2.2)

/-- The code-table body produced by `Generator::generate` for one buffer:
the first styled row header (lines 289-301), then the rendering loop. -/
def generate (buffer : List Char) (tags : List Tag) (cm cv : List Int) :
    List OutItem :=
  OutItem.lineHeader 1 (lineStyle cm 1) (lineStyle2 cv 1) ::
    generateLoop buffer.length cm cv buffer 0 [] 1 tags []

/-- A body byte with no special handling in the rendering loop: not a
newline and not one of the three body-escaped characters. -/
def plainChar (c : Char) : Bool :=
  !(c = '\n' || c = '&' || c = '<' || c = '>')

section UnfoldLemmas

variable {endPos : Nat} {cm cv : List Int} {ch : Char} {rest pending : List Char}
variable {c line : Nat} {tags stack : List Tag}

lemma generateLoop_nil :
    generateLoop endPos cm cv [] c pending line tags stack =
      flushItems pending ++ (popCloses c stack).1 ++ [OutItem.lineFooter] := rfl

lemma plainChar_spec (h : plainChar ch = true) :
    ch ≠ '\n' ∧ ch ≠ '&' ∧ ch ≠ '<' ∧ ch ≠ '>' := by
  simp [plainChar] at h
  exact ⟨h.1.1.1, h.1.1.2, h.1.2, h.2⟩

lemma generateLoop_noevent_plain
    (h : c ≠ min (stackEnd endPos stack) (nextStart endPos tags))
    (hch : plainChar ch = true) :
    generateLoop endPos cm cv (ch :: rest) c pending line tags stack =
      generateLoop endPos cm cv rest (c + 1) (pending ++ [ch]) line tags stack := by
  obtain ⟨h1, h2, h3, h4⟩ := plainChar_spec hch
  simp only [generateLoop, if_neg h, if_neg h1, if_neg h2, if_neg h3, if_neg h4,
    List.nil_append]

lemma generateLoop_noevent_newline
    (h : c ≠ min (stackEnd endPos stack) (nextStart endPos tags)) :
    generateLoop endPos cm cv ('\n' :: rest) c pending line tags stack =
      flushItems pending ++ stack.map OutItem.closeTag ++
        [OutItem.lineFooter,
         OutItem.lineHeader (line + 1) (lineStyle cm (line + 1))
           (lineStyle2 cv (line + 1))] ++
        stack.reverse.map OutItem.openTag ++
        generateLoop endPos cm cv rest (c + 1) [] (line + 1) tags stack := by
  simp only [generateLoop, if_neg h]
  simp [List.append_assoc]

lemma generateLoop_noevent_amp
    (h : c ≠ min (stackEnd endPos stack) (nextStart endPos tags)) :
    generateLoop endPos cm cv ('&' :: rest) c pending line tags stack =
      flushItems pending ++ [OutItem.entity "&amp;"] ++
        generateLoop endPos cm cv rest (c + 1) [] line tags stack := by
  simp only [generateLoop, if_neg h]
  simp [List.append_assoc]

lemma generateLoop_noevent_lt
    (h : c ≠ min (stackEnd endPos stack) (nextStart endPos tags)) :
    generateLoop endPos cm cv ('<' :: rest) c pending line tags stack =
      flushItems pending ++ [OutItem.entity "&lt;"] ++
        generateLoop endPos cm cv rest (c + 1) [] line tags stack := by
  simp only [generateLoop, if_neg h]
  simp [List.append_assoc]

lemma generateLoop_noevent_gt
    (h : c ≠ min (stackEnd endPos stack) (nextStart endPos tags)) :
    generateLoop endPos cm cv ('>' :: rest) c pending line tags stack =
      flushItems pending ++ [OutItem.entity "&gt;"] ++
        generateLoop endPos cm cv rest (c + 1) [] line tags stack := by
  simp only [generateLoop, if_neg h]
  simp [List.append_assoc]

lemma generateLoop_event_plain
    (h : c = min (stackEnd endPos stack) (nextStart endPos tags))
    (hch : plainChar ch = true) :
    generateLoop endPos cm cv (ch :: rest) c pending line tags stack =
      flushItems pending ++ (doEvent c tags stack).1 ++
        generateLoop endPos cm cv rest (c + 1) [ch] line
          (doEvent c tags stack).2.1 (doEvent c tags stack).2.2 := by
  obtain ⟨h1, h2, h3, h4⟩ := plainChar_spec hch
  simp only [generateLoop, if_pos h, if_neg h1, if_neg h2, if_neg h3, if_neg h4,
    List.nil_append, List.append_assoc]

lemma generateLoop_event_newline
    (h : c = min (stackEnd endPos stack) (nextStart endPos tags)) :
    generateLoop endPos cm cv ('\n' :: rest) c pending line tags stack =
      flushItems pending ++ (doEvent c tags stack).1 ++
        ((doEvent c tags stack).2.2).map OutItem.closeTag ++
        [OutItem.lineFooter,
         OutItem.lineHeader (line + 1) (lineStyle cm (line + 1))
           (lineStyle2 cv (line + 1))] ++
        ((doEvent c tags stack).2.2).reverse.map OutItem.openTag ++
        generateLoop endPos cm cv rest (c + 1) [] (line + 1)
          (doEvent c tags stack).2.1 (doEvent c tags stack).2.2 := by
  simp only [generateLoop, if_pos h]
  simp [flushItems, List.append_assoc]

end UnfoldLemmas

lemma flushItems_nil : flushItems [] = [] := rfl

lemma flushItems_ne {p : List Char} (h : p ≠ []) :
    flushItems p = [OutItem.raw p] := by
  simp [flushItems, h]

/-- Scanning a run of plain bytes that contains no event position only grows
the pending verbatim window. -/
lemma run_plain {endPos : Nat} {cm cv : List Int} (xs : List Char) :
    ∀ (rest : List Char) (c : Nat) (pending : List Char) (line : Nat)
      (tags stack : List Tag),
    (∀ ch ∈ xs, plainChar ch = true) →
    (∀ i, i < xs.length → c + i ≠ min (stackEnd endPos stack) (nextStart endPos tags)) →
    generateLoop endPos cm cv (xs ++ rest) c pending line tags stack =
      generateLoop endPos cm cv rest (c + xs.length) (pending ++ xs) line tags stack := by
  induction xs with
  | nil => intro rest c pending line tags stack _ _; simp
  | cons x xs ih =>
    intro rest c pending line tags stack hplain hevt
    have h0 : c ≠ min (stackEnd endPos stack) (nextStart endPos tags) := by
      have := hevt 0 (by simp)
      simpa using this
    rw [List.cons_append,
      generateLoop_noevent_plain h0 (hplain x (by simp)),
      ih rest (c + 1) (pending ++ [x]) line tags stack
        (fun ch hch => hplain ch (by simp [hch]))
        (fun i hi => by
          have := hevt (i + 1) (by simpa using Nat.succ_lt_succ hi)
          omega)]
    have hlen : c + 1 + xs.length = c + (x :: xs).length := by
      simp [List.length_cons]; omega
    rw [hlen, List.append_assoc]
    rfl

/-- Scanning a final run of plain bytes with no event position before the
end of the buffer: the run is flushed, the close loop runs, the final
line footer is written. -/
lemma run_plain_tail {endPos : Nat} {cm cv : List Int} (xs : List Char)
    (c : Nat) (pending : List Char) (line : Nat) (tags stack : List Tag)
    (hplain : ∀ ch ∈ xs, plainChar ch = true)
    (hevt : ∀ i, i < xs.length →
      c + i ≠ min (stackEnd endPos stack) (nextStart endPos tags)) :
    generateLoop endPos cm cv xs c pending line tags stack =
      flushItems (pending ++ xs) ++ (popCloses (c + xs.length) stack).1 ++
        [OutItem.lineFooter] := by
  have h := @run_plain endPos cm cv xs [] c pending line tags stack hplain hevt
  rw [List.append_nil] at h
  rw [h, generateLoop_nil]

/-- C1: for a buffer of plain bytes split as `a ++ b ++ d` and a single tag
starting at offset `a.length` with length `b.length`, the rendered line body
is the text of `a`, the tag's opening markup, the text of `b`, the tag's
closing markup, and the text of `d`: opening markup immediately before the
byte at the tag's start offset, closing markup immediately after the byte at
offset `start + length - 1`, with plain text emitted through the body
escaper (as verbatim runs, since the bytes are unreserved). In particular
for buffer `"hello"` with tag `{name := "span", start := 1, length := 3}`
the body is `h`, open, `ell`, close, `o`. -/
lemma singleTag_render (a b d : List Char) (t : Tag) (cm cv : List Int)
    (ha : ∀ ch ∈ a, plainChar ch = true)
    (hb : ∀ ch ∈ b, plainChar ch = true)
    (hd : ∀ ch ∈ d, plainChar ch = true)
    (hpos : t.pos = a.length) (hlen : t.len = b.length) (hb0 : b ≠ []) :
    generate (a ++ b ++ d) [t] cm cv =
      [OutItem.lineHeader 1 (lineStyle cm 1) (lineStyle2 cv 1)] ++ flushItems a ++
        [OutItem.openTag t, OutItem.raw b, OutItem.closeTag t] ++
        flushItems d ++ [OutItem.lineFooter] := by
  obtain ⟨b0, b', hbeq⟩ := List.exists_cons_of_ne_nil hb0
  have hlen0 : t.len ≠ 0 := by rw [hlen, hbeq]; simp
  simp only [generate]
  rw [List.append_assoc]
  set E := (a ++ (b ++ d)).length with hEdef
  have hE : E = a.length + b.length + d.length := by simp [hEdef]; omega
  have hmin1 : min (stackEnd E ([] : List Tag)) (nextStart E [t]) = t.pos := by
    simp only [stackEnd, nextStart]
    exact min_eq_right (by rw [hpos, hE]; omega)
  have hev1 : ∀ i, i < a.length →
      0 + i ≠ min (stackEnd E ([] : List Tag)) (nextStart E [t]) := by
    intro i hi; rw [hmin1, hpos]; omega
  rw [run_plain a (b ++ d) 0 [] 1 [t] [] ha hev1]
  simp only [Nat.zero_add, List.nil_append]
  rw [hbeq, List.cons_append]
  have h2 : a.length = min (stackEnd E ([] : List Tag)) (nextStart E [t]) := by
    rw [hmin1, hpos]
  have hplain0 : plainChar b0 = true := hb b0 (by rw [hbeq]; simp)
  rw [generateLoop_event_plain h2 hplain0]
  have hdo : doEvent a.length [t] [] = ([OutItem.openTag t], [], [t]) := by
    simp [doEvent, popCloses, processOpens, hpos, hlen0]
  rw [hdo]
  have hmin2 : min (stackEnd E [t]) (nextStart E ([] : List Tag)) =
      t.pos + t.len := by
    simp only [stackEnd, nextStart]
    exact min_eq_left (by rw [hpos, hlen, hE]; omega)
  have hev2 : ∀ i, i < b'.length →
      a.length + 1 + i ≠ min (stackEnd E [t]) (nextStart E ([] : List Tag)) := by
    intro i hi
    rw [hmin2, hpos, hlen, hbeq]
    simp only [List.length_cons]
    omega
  rw [run_plain b' d (a.length + 1) [b0] 1 [] [t]
    (fun ch hch => hb ch (by rw [hbeq]; simp [hch])) hev2]
  have hc2 : a.length + 1 + b'.length = a.length + b.length := by
    rw [hbeq]; simp only [List.length_cons]; omega
  have hpend : ([b0] ++ b' : List Char) = b := by rw [hbeq]; rfl
  rw [hc2, hpend]
  cases d with
  | nil =>
    rw [generateLoop_nil]
    have hpop : (popCloses (a.length + b.length) [t]).1 =
        [OutItem.closeTag t] := by
      simp [popCloses, hpos, hlen]
    rw [hpop, flushItems_ne hb0]
    simp [flushItems]
    exact hbeq
  | cons d0 d' =>
    have h3 : a.length + b.length =
        min (stackEnd E [t]) (nextStart E ([] : List Tag)) := by
      rw [hmin2, hpos, hlen]
    rw [generateLoop_event_plain h3 (hd d0 (by simp))]
    have hdo2 : doEvent (a.length + b.length) [] [t] =
        ([OutItem.closeTag t], [], []) := by
      simp [doEvent, popCloses, processOpens, hpos, hlen]
    rw [hdo2]
    have hmin3 : min (stackEnd E ([] : List Tag)) (nextStart E ([] : List Tag)) =
        E := by simp [stackEnd, nextStart]
    have hev3 : ∀ i, i < d'.length → a.length + b.length + 1 + i ≠
        min (stackEnd E ([] : List Tag)) (nextStart E ([] : List Tag)) := by
      intro i hi
      rw [hmin3, hE]
      simp only [List.length_cons]
      omega
    rw [run_plain_tail d' (a.length + b.length + 1) [d0] 1 [] []
      (fun ch hch => hd ch (by simp [hch])) hev3]
    have hpop2 : (popCloses (a.length + b.length + 1 + d'.length)
        ([] : List Tag)).1 = [] := by simp [popCloses]
    rw [hpop2, flushItems_ne hb0]
    simp [List.append_assoc]
    exact hbeq

lemma mem_flushItems {it : OutItem} {p : List Char} (h : it ∈ flushItems p) :
    it = OutItem.raw p ∧ p ≠ [] := by
  unfold flushItems at h
  split at h
  · simp at h
  · next hne =>
    simp at h
    exact ⟨h, by simpa [List.isEmpty_iff] using hne⟩

lemma mem_popCloses_items {it : OutItem} {c : Nat} :
    ∀ {stack : List Tag}, it ∈ (popCloses c stack).1 →
      ∃ t ∈ stack, it = OutItem.closeTag t := by
  intro stack
  induction stack with
  | nil => simp [popCloses]
  | cons t rest ih =>
    intro h
    by_cases hc : t.pos + t.len ≤ c
    · simp only [popCloses, if_pos hc, List.mem_cons] at h
      rcases h with h | h
      · exact ⟨t, by simp, h⟩
      · obtain ⟨u, hu, he⟩ := ih h
        exact ⟨u, by simp [hu], he⟩
    · simp [popCloses, if_neg hc] at h

lemma popCloses_stack_mem {c : Nat} {t' : Tag} :
    ∀ {stack : List Tag}, t' ∈ (popCloses c stack).2 → t' ∈ stack := by
  intro stack
  induction stack with
  | nil => simp [popCloses]
  | cons t rest ih =>
    intro h
    by_cases hc : t.pos + t.len ≤ c
    · simp only [popCloses, if_pos hc] at h
      exact List.mem_cons_of_mem t (ih h)
    · simpa [popCloses, if_neg hc] using h

lemma mem_processOpens_items {it : OutItem} {c : Nat} :
    ∀ {tags stack : List Tag}, it ∈ (processOpens c tags stack).1 →
      ∃ t ∈ tags, it = OutItem.openTag t := by
  intro tags
  induction tags with
  | nil => simp [processOpens]
  | cons t rest ih =>
    intro stack h
    by_cases hc : t.pos = c
    · simp only [processOpens, if_pos hc, List.mem_cons] at h
      rcases h with h | h
      · exact ⟨t, by simp, h⟩
      · obtain ⟨u, hu, he⟩ := ih h
        exact ⟨u, by simp [hu], he⟩
    · simp [processOpens, if_neg hc] at h

lemma processOpens_stack_mem {c : Nat} {t' : Tag} :
    ∀ {tags stack : List Tag}, t' ∈ (processOpens c tags stack).2.2 →
      t' ∈ stack ∨ (t' ∈ tags ∧ t'.len ≠ 0) := by
  intro tags
  induction tags with
  | nil =>
    intro stack h
    simp only [processOpens] at h
    exact Or.inl h
  | cons t rest ih =>
    intro stack h
    by_cases hc : t.pos = c
    · simp only [processOpens, if_pos hc] at h
      rcases ih h with h' | h'
      · by_cases hl : t.len ≠ 0
        · rw [if_pos hl] at h'
          rcases List.mem_cons.mp h' with h'' | h''
          · exact Or.inr ⟨by simp [h''], h'' ▸ hl⟩
          · exact Or.inl h''
        · rw [if_neg hl] at h'
          exact Or.inl h'
      · exact Or.inr ⟨List.mem_cons_of_mem t h'.1, h'.2⟩
    · simp only [processOpens, if_neg hc] at h
      exact Or.inl h

lemma processOpens_tags_mem {c : Nat} {t' : Tag} :
    ∀ {tags stack : List Tag}, t' ∈ (processOpens c tags stack).2.1 →
      t' ∈ tags := by
  intro tags
  induction tags with
  | nil => simp [processOpens]
  | cons t rest ih =>
    intro stack h
    by_cases hc : t.pos = c
    · simp only [processOpens, if_pos hc] at h
      exact List.mem_cons_of_mem t (ih h)
    · simp only [processOpens, if_neg hc] at h
      exact h

lemma mem_doEvent_items {it : OutItem} {c : Nat} {tags stack : List Tag}
    (h : it ∈ (doEvent c tags stack).1) :
    (∃ t ∈ stack, it = OutItem.closeTag t) ∨ (∃ t ∈ tags, it = OutItem.openTag t) := by
  simp only [doEvent, List.mem_append] at h
  rcases h with h | h
  · exact Or.inl (mem_popCloses_items h)
  · exact Or.inr (mem_processOpens_items h)

lemma doEvent_tags_mem {c : Nat} {tags stack : List Tag} {t' : Tag}
    (h : t' ∈ (doEvent c tags stack).2.1) : t' ∈ tags := by
  simp only [doEvent] at h
  exact processOpens_tags_mem h

lemma doEvent_stack_mem {c : Nat} {tags stack : List Tag} {t' : Tag}
    (h : t' ∈ (doEvent c tags stack).2.2) :
    t' ∈ stack ∨ (t' ∈ tags ∧ t'.len ≠ 0) := by
  simp only [doEvent] at h
  rcases processOpens_stack_mem h with h' | h'
  · exact Or.inl (popCloses_stack_mem h')
  · exact Or.inr h'

lemma char_cases (ch : Char) :
    ch = '\n' ∨ ch = '&' ∨ ch = '<' ∨ ch = '>' ∨ plainChar ch = true := by
  by_cases h1 : ch = '\n'
  · exact Or.inl h1
  by_cases h2 : ch = '&'
  · exact Or.inr (Or.inl h2)
  by_cases h3 : ch = '<'
  · exact Or.inr (Or.inr (Or.inl h3))
  by_cases h4 : ch = '>'
  · exact Or.inr (Or.inr (Or.inr (Or.inl h4)))
  · exact Or.inr (Or.inr (Or.inr (Or.inr (by simp [plainChar, h1, h2, h3, h4]))))

section EventEntityUnfold

variable {endPos : Nat} {cm cv : List Int} {rest pending : List Char}
variable {c line : Nat} {tags stack : List Tag}

lemma generateLoop_event_amp
    (h : c = min (stackEnd endPos stack) (nextStart endPos tags)) :
    generateLoop endPos cm cv ('&' :: rest) c pending line tags stack =
      flushItems pending ++ (doEvent c tags stack).1 ++ [OutItem.entity "&amp;"] ++
        generateLoop endPos cm cv rest (c + 1) [] line
          (doEvent c tags stack).2.1 (doEvent c tags stack).2.2 := by
  simp only [generateLoop, if_pos h]
  simp [flushItems, List.append_assoc]

lemma generateLoop_event_lt
    (h : c = min (stackEnd endPos stack) (nextStart endPos tags)) :
    generateLoop endPos cm cv ('<' :: rest) c pending line tags stack =
      flushItems pending ++ (doEvent c tags stack).1 ++ [OutItem.entity "&lt;"] ++
        generateLoop endPos cm cv rest (c + 1) [] line
          (doEvent c tags stack).2.1 (doEvent c tags stack).2.2 := by
  simp only [generateLoop, if_pos h]
  simp [flushItems, List.append_assoc]

lemma generateLoop_event_gt
    (h : c = min (stackEnd endPos stack) (nextStart endPos tags)) :
    generateLoop endPos cm cv ('>' :: rest) c pending line tags stack =
      flushItems pending ++ (doEvent c tags stack).1 ++ [OutItem.entity "&gt;"] ++
        generateLoop endPos cm cv rest (c + 1) [] line
          (doEvent c tags stack).2.1 (doEvent c tags stack).2.2 := by
  simp only [generateLoop, if_pos h]
  simp [flushItems, List.append_assoc]

end EventEntityUnfold

/-- Classification of an output item of the rendering loop by its emission
site, with the payload constrained by the loop state: verbatim runs hold
only pending bytes or plain buffer bytes, entities are the three body
escapes, opens come from pending tags or the stack, closes from the stack or
from pushed (nonzero-length) pending tags, and row headers are always styled
by the two line classifications. -/
def ItemSource (cm cv : List Int) (remaining pending : List Char)
    (tags stack : List Tag) (it : OutItem) : Prop :=
  (∃ p, it = OutItem.raw p ∧ p ≠ [] ∧
    (∀ ch ∈ p, ch ∈ pending ∨ (ch ∈ remaining ∧ plainChar ch = true))) ∨
  (it = OutItem.entity "&amp;" ∨ it = OutItem.entity "&lt;" ∨
    it = OutItem.entity "&gt;") ∨
  (∃ t, it = OutItem.openTag t ∧ (t ∈ tags ∨ t ∈ stack)) ∨
  (∃ t, it = OutItem.closeTag t ∧ (t ∈ stack ∨ (t ∈ tags ∧ t.len ≠ 0))) ∨
  (∃ n, it = OutItem.lineHeader n (lineStyle cm n) (lineStyle2 cv n)) ∨
  it = OutItem.lineFooter

lemma itemSource_weaken {cm cv : List Int} {rest pending pending' : List Char}
    {ch : Char} {tags stack tags' stack' : List Tag} {it : OutItem}
    (h : ItemSource cm cv rest pending' tags' stack' it)
    (htags : ∀ t ∈ tags', t ∈ tags)
    (hstack : ∀ t ∈ stack', t ∈ stack ∨ (t ∈ tags ∧ t.len ≠ 0))
    (hpend : ∀ x ∈ pending', x ∈ pending ∨ (x ∈ ch :: rest ∧ plainChar x = true)) :
    ItemSource cm cv (ch :: rest) pending tags stack it := by
  rcases h with ⟨p, he, hne, hp⟩ | h | ⟨t, he, ht⟩ | ⟨t, he, ht⟩ | h | h
  · refine Or.inl ⟨p, he, hne, fun x hx => ?_⟩
    rcases hp x hx with hx' | ⟨hx', hpl⟩
    · exact hpend x hx'
    · exact Or.inr ⟨List.mem_cons_of_mem ch hx', hpl⟩
  · exact Or.inr (Or.inl h)
  · refine Or.inr (Or.inr (Or.inl ⟨t, he, ?_⟩))
    rcases ht with ht | ht
    · exact Or.inl (htags t ht)
    · rcases hstack t ht with h' | h'
      · exact Or.inr h'
      · exact Or.inl h'.1
  · refine Or.inr (Or.inr (Or.inr (Or.inl ⟨t, he, ?_⟩)))
    rcases ht with ht | ht
    · exact hstack t ht
    · exact Or.inr ⟨htags t ht.1, ht.2⟩
  · exact Or.inr (Or.inr (Or.inr (Or.inr (Or.inl h))))
  · exact Or.inr (Or.inr (Or.inr (Or.inr (Or.inr h))))

lemma itemSource_of_flush {cm cv : List Int} {remaining pending : List Char}
    {tags stack : List Tag} {it : OutItem} (h : it ∈ flushItems pending) :
    ItemSource cm cv remaining pending tags stack it := by
  obtain ⟨he, hne⟩ := mem_flushItems h
  exact Or.inl ⟨pending, he, hne, fun x hx => Or.inl hx⟩

lemma itemSource_of_doEvent {cm cv : List Int} {remaining pending : List Char}
    {c : Nat} {tags stack : List Tag} {it : OutItem}
    (h : it ∈ (doEvent c tags stack).1) :
    ItemSource cm cv remaining pending tags stack it := by
  rcases mem_doEvent_items h with ⟨t, ht, he⟩ | ⟨t, ht, he⟩
  · exact Or.inr (Or.inr (Or.inr (Or.inl ⟨t, he, Or.inl ht⟩)))
  · exact Or.inr (Or.inr (Or.inl ⟨t, he, Or.inl ht⟩))

lemma itemSource_of_closes {cm cv : List Int} {remaining pending : List Char}
    {tags stack stack' : List Tag} {it : OutItem}
    (h : it ∈ stack'.map OutItem.closeTag)
    (hstack : ∀ t ∈ stack', t ∈ stack ∨ (t ∈ tags ∧ t.len ≠ 0)) :
    ItemSource cm cv remaining pending tags stack it := by
  obtain ⟨t, ht, he⟩ := List.mem_map.mp h
  exact Or.inr (Or.inr (Or.inr (Or.inl ⟨t, he.symm, hstack t ht⟩)))

lemma itemSource_of_reopens {cm cv : List Int} {remaining pending : List Char}
    {tags stack stack' : List Tag} {it : OutItem}
    (h : it ∈ stack'.reverse.map OutItem.openTag)
    (hstack : ∀ t ∈ stack', t ∈ stack ∨ (t ∈ tags ∧ t.len ≠ 0)) :
    ItemSource cm cv remaining pending tags stack it := by
  obtain ⟨t, ht, he⟩ := List.mem_map.mp h
  rw [List.mem_reverse] at ht
  rcases hstack t ht with h' | h'
  · exact Or.inr (Or.inr (Or.inl ⟨t, he.symm, Or.inr h'⟩))
  · exact Or.inr (Or.inr (Or.inl ⟨t, he.symm, Or.inl h'.1⟩))

/-- Every item emitted by the rendering loop is classified by
`ItemSource`. -/
lemma mem_generateLoop_items {endPos : Nat} {cm cv : List Int} :
    ∀ (remaining : List Char) (c : Nat) (pending : List Char) (line : Nat)
      (tags stack : List Tag) (it : OutItem),
    it ∈ generateLoop endPos cm cv remaining c pending line tags stack →
    ItemSource cm cv remaining pending tags stack it := by
  intro remaining
  induction remaining with
  | nil =>
    intro c pending line tags stack it h
    rw [generateLoop_nil] at h
    simp only [List.mem_append, List.mem_singleton] at h
    rcases h with (h | h) | h
    · exact itemSource_of_flush h
    · obtain ⟨t, ht, he⟩ := mem_popCloses_items h
      exact Or.inr (Or.inr (Or.inr (Or.inl ⟨t, he, Or.inl ht⟩)))
    · exact Or.inr (Or.inr (Or.inr (Or.inr (Or.inr h))))
  | cons ch rest ih =>
    intro c pending line tags stack it h
    by_cases hevt : c = min (stackEnd endPos stack) (nextStart endPos tags)
    · rcases char_cases ch with hc | hc | hc | hc | hc
      · subst hc
        rw [generateLoop_event_newline hevt] at h
        simp only [List.mem_append, List.mem_cons, List.mem_singleton,
          List.not_mem_nil, or_false] at h
        rcases h with ((((h | h) | h) | h | h) | h) | h
        · exact itemSource_of_flush h
        · exact itemSource_of_doEvent h
        · exact itemSource_of_closes h (fun t ht => doEvent_stack_mem ht)
        · exact h ▸ Or.inr (Or.inr (Or.inr (Or.inr (Or.inr rfl))))
        · exact h ▸ Or.inr (Or.inr (Or.inr (Or.inr (Or.inl ⟨line + 1, rfl⟩))))
        · exact itemSource_of_reopens h (fun t ht => doEvent_stack_mem ht)
        · exact itemSource_weaken (ih _ _ _ _ _ _ h)
            (fun t ht => doEvent_tags_mem ht)
            (fun t ht => doEvent_stack_mem ht)
            (by simp)
      · subst hc
        rw [generateLoop_event_amp hevt] at h
        simp only [List.mem_append, List.mem_singleton] at h
        rcases h with ((h | h) | h) | h
        · exact itemSource_of_flush h
        · exact itemSource_of_doEvent h
        · exact h ▸ Or.inr (Or.inl (Or.inl rfl))
        · exact itemSource_weaken (ih _ _ _ _ _ _ h)
            (fun t ht => doEvent_tags_mem ht)
            (fun t ht => doEvent_stack_mem ht)
            (by simp)
      · subst hc
        rw [generateLoop_event_lt hevt] at h
        simp only [List.mem_append, List.mem_singleton] at h
        rcases h with ((h | h) | h) | h
        · exact itemSource_of_flush h
        · exact itemSource_of_doEvent h
        · exact h ▸ Or.inr (Or.inl (Or.inr (Or.inl rfl)))
        · exact itemSource_weaken (ih _ _ _ _ _ _ h)
            (fun t ht => doEvent_tags_mem ht)
            (fun t ht => doEvent_stack_mem ht)
            (by simp)
      · subst hc
        rw [generateLoop_event_gt hevt] at h
        simp only [List.mem_append, List.mem_singleton] at h
        rcases h with ((h | h) | h) | h
        · exact itemSource_of_flush h
        · exact itemSource_of_doEvent h
        · exact h ▸ Or.inr (Or.inl (Or.inr (Or.inr rfl)))
        · exact itemSource_weaken (ih _ _ _ _ _ _ h)
            (fun t ht => doEvent_tags_mem ht)
            (fun t ht => doEvent_stack_mem ht)
            (by simp)
      · rw [generateLoop_event_plain hevt hc] at h
        simp only [List.mem_append] at h
        rcases h with (h | h) | h
        · exact itemSource_of_flush h
        · exact itemSource_of_doEvent h
        · exact itemSource_weaken (ih _ _ _ _ _ _ h)
            (fun t ht => doEvent_tags_mem ht)
            (fun t ht => doEvent_stack_mem ht)
            (fun x hx => by
              simp only [List.mem_singleton] at hx
              exact Or.inr ⟨by simp [hx], hx ▸ hc⟩)
    · rcases char_cases ch with hc | hc | hc | hc | hc
      · subst hc
        rw [generateLoop_noevent_newline hevt] at h
        simp only [List.mem_append, List.mem_cons, List.mem_singleton,
          List.not_mem_nil, or_false] at h
        rcases h with (((h | h) | h | h) | h) | h
        · exact itemSource_of_flush h
        · exact itemSource_of_closes h (fun t ht => Or.inl ht)
        · exact h ▸ Or.inr (Or.inr (Or.inr (Or.inr (Or.inr rfl))))
        · exact h ▸ Or.inr (Or.inr (Or.inr (Or.inr (Or.inl ⟨line + 1, rfl⟩))))
        · exact itemSource_of_reopens h (fun t ht => Or.inl ht)
        · exact itemSource_weaken (ih _ _ _ _ _ _ h)
            (fun t ht => ht) (fun t ht => Or.inl ht) (by simp)
      · subst hc
        rw [generateLoop_noevent_amp hevt] at h
        simp only [List.mem_append, List.mem_singleton] at h
        rcases h with (h | h) | h
        · exact itemSource_of_flush h
        · exact h ▸ Or.inr (Or.inl (Or.inl rfl))
        · exact itemSource_weaken (ih _ _ _ _ _ _ h)
            (fun t ht => ht) (fun t ht => Or.inl ht) (by simp)
      · subst hc
        rw [generateLoop_noevent_lt hevt] at h
        simp only [List.mem_append, List.mem_singleton] at h
        rcases h with (h | h) | h
        · exact itemSource_of_flush h
        · exact h ▸ Or.inr (Or.inl (Or.inr (Or.inl rfl)))
        · exact itemSource_weaken (ih _ _ _ _ _ _ h)
            (fun t ht => ht) (fun t ht => Or.inl ht) (by simp)
      · subst hc
        rw [generateLoop_noevent_gt hevt] at h
        simp only [List.mem_append, List.mem_singleton] at h
        rcases h with (h | h) | h
        · exact itemSource_of_flush h
        · exact h ▸ Or.inr (Or.inl (Or.inr (Or.inr rfl)))
        · exact itemSource_weaken (ih _ _ _ _ _ _ h)
            (fun t ht => ht) (fun t ht => Or.inl ht) (by simp)
      · rw [generateLoop_noevent_plain hevt hc] at h
        refine itemSource_weaken (ih _ _ _ _ _ _ h)
          (fun t ht => ht) (fun t ht => Or.inl ht) (fun x hx => ?_)
        rcases List.mem_append.mp hx with hx' | hx'
        · exact Or.inl hx'
        · simp only [List.mem_singleton] at hx'
          exact Or.inr ⟨by simp [hx'], hx' ▸ hc⟩

/-- Stack-based balance check over the emitted tag markup: an open of a
nonzero-length tag pushes its name (a zero-length open is emitted already
self-closed, so it pushes nothing); a close must match the top of the stack
and pops it; a line footer requires the stack to be empty (the line
container must close with valid nesting); the check succeeds when the end of
the item list is reached with an empty stack. -/
def balCheck : List OutItem → List String → Bool
  | [], st => st.isEmpty
  | it :: rest, st =>
    match it with
    | .openTag t =>
      if t.len ≠ 0 then balCheck rest (t.name :: st) else balCheck rest st
    | .closeTag t =>
      match st with
      | [] => false
      | n :: st' => n == t.name && balCheck rest st'
    | .lineFooter => st.isEmpty && balCheck rest st
    | _ => balCheck rest st

lemma balCheck_open {t : Tag} {rest : List OutItem} {st : List String} :
    balCheck (OutItem.openTag t :: rest) st =
      if t.len ≠ 0 then balCheck rest (t.name :: st) else balCheck rest st := rfl

lemma balCheck_flush {p : List Char} {rest : List OutItem} {st : List String} :
    balCheck (flushItems p ++ rest) st = balCheck rest st := by
  unfold flushItems
  split
  · rfl
  · rfl

lemma balCheck_popCloses {c : Nat} {rest : List OutItem} :
    ∀ {stack : List Tag},
    balCheck ((popCloses c stack).1 ++ rest) (stack.map Tag.name) =
      balCheck rest (((popCloses c stack).2).map Tag.name) := by
  intro stack
  induction stack with
  | nil => simp [popCloses]
  | cons t stack' ih =>
    by_cases hc : t.pos + t.len ≤ c
    · simp only [popCloses, if_pos hc, List.map_cons, List.cons_append]
      show (t.name == t.name && _) = _
      simpa using ih
    · simp [popCloses, if_neg hc]

lemma balCheck_processOpens {c : Nat} {rest : List OutItem} :
    ∀ {tags stack : List Tag},
    balCheck ((processOpens c tags stack).1 ++ rest) (stack.map Tag.name) =
      balCheck rest (((processOpens c tags stack).2.2).map Tag.name) := by
  intro tags
  induction tags with
  | nil => intro stack; simp [processOpens]
  | cons t tags' ih =>
    intro stack
    by_cases hc : t.pos = c
    · by_cases hl : t.len ≠ 0
      · simp only [processOpens, if_pos hc, if_pos hl, List.cons_append]
        rw [balCheck_open, if_pos hl]
        exact @ih (t :: stack)
      · simp only [processOpens, if_pos hc, if_neg hl, List.cons_append]
        rw [balCheck_open, if_neg hl]
        exact @ih stack
    · simp [processOpens, if_neg hc]

lemma balCheck_doEvent {c : Nat} {rest : List OutItem} {tags stack : List Tag} :
    balCheck ((doEvent c tags stack).1 ++ rest) (stack.map Tag.name) =
      balCheck rest (((doEvent c tags stack).2.2).map Tag.name) := by
  simp only [doEvent, List.append_assoc]
  rw [balCheck_popCloses, balCheck_processOpens]

lemma balCheck_closes {rest : List OutItem} :
    ∀ {stack : List Tag},
    balCheck (stack.map OutItem.closeTag ++ rest) (stack.map Tag.name) =
      balCheck rest [] := by
  intro stack
  induction stack with
  | nil => simp
  | cons t stack' ih =>
    simp only [List.map_cons, List.cons_append]
    show (t.name == t.name && _) = _
    simpa using ih

lemma balCheck_reopens {rest : List OutItem} :
    ∀ {l : List Tag} {st : List String}, (∀ t ∈ l, t.len ≠ 0) →
    balCheck (l.map OutItem.openTag ++ rest) st =
      balCheck rest (l.reverse.map Tag.name ++ st) := by
  intro l
  induction l with
  | nil => intro st _; simp
  | cons t l' ih =>
    intro st hl
    simp only [List.map_cons, List.cons_append]
    rw [balCheck_open, if_pos (hl t (by simp)), ih (fun u hu => hl u (by simp [hu]))]
    simp [List.append_assoc]

lemma balCheck_footer_nil {rest : List OutItem} :
    balCheck (OutItem.lineFooter :: rest) [] = balCheck rest [] := by
  simp [balCheck]

lemma balCheck_header {rest : List OutItem} {st : List String} {n : Nat}
    {s1 s2 : String} :
    balCheck (OutItem.lineHeader n s1 s2 :: rest) st = balCheck rest st := rfl

lemma balCheck_entity {rest : List OutItem} {st : List String} {e : String} :
    balCheck (OutItem.entity e :: rest) st = balCheck rest st := rfl

lemma popCloses_all {c : Nat} :
    ∀ {stack : List Tag}, (∀ t ∈ stack, t.pos + t.len ≤ c) →
    popCloses c stack = (stack.map OutItem.closeTag, []) := by
  intro stack
  induction stack with
  | nil => intro _; rfl
  | cons t stack' ih =>
    intro h
    simp only [popCloses, if_pos (h t (by simp)), ih (fun u hu => h u (by simp [hu]))]
    simp

/-- Balance invariant of the rendering loop: starting from a balance stack
that lists exactly the open tags (innermost first), the rest of the render
passes the balance check, provided every tag ends within the buffer. -/
lemma balCheck_loop {endPos : Nat} {cm cv : List Int} :
    ∀ (remaining : List Char) (c : Nat) (pending : List Char) (line : Nat)
      (tags stack : List Tag),
    c + remaining.length = endPos →
    (∀ t ∈ stack, t.len ≠ 0) →
    (∀ t ∈ stack, t.pos + t.len ≤ endPos) →
    (∀ t ∈ tags, t.pos + t.len ≤ endPos) →
    balCheck (generateLoop endPos cm cv remaining c pending line tags stack)
      (stack.map Tag.name) = true := by
  intro remaining
  induction remaining with
  | nil =>
    intro c pending line tags stack hc hs0 hsB _
    simp only [List.length_nil, Nat.add_zero] at hc
    rw [generateLoop_nil, List.append_assoc, balCheck_flush]
    have hall : ∀ t ∈ stack, t.pos + t.len ≤ c := by
      intro t ht; have := hsB t ht; omega
    rw [popCloses_all hall]
    simp only [List.append_nil]
    rw [balCheck_closes, balCheck_footer_nil]
    rfl
  | cons ch rest ih =>
    intro c pending line tags stack hc hs0 hsB htB
    have hc' : c + 1 + rest.length = endPos := by
      simp only [List.length_cons] at hc; omega
    have hs0' : ∀ t ∈ (doEvent c tags stack).2.2, t.len ≠ 0 := by
      intro t ht
      rcases doEvent_stack_mem ht with h' | h'
      · exact hs0 t h'
      · exact h'.2
    have hsB' : ∀ t ∈ (doEvent c tags stack).2.2, t.pos + t.len ≤ endPos := by
      intro t ht
      rcases doEvent_stack_mem ht with h' | h'
      · exact hsB t h'
      · exact htB t h'.1
    have htB' : ∀ t ∈ (doEvent c tags stack).2.1, t.pos + t.len ≤ endPos :=
      fun t ht => htB t (doEvent_tags_mem ht)
    by_cases hevt : c = min (stackEnd endPos stack) (nextStart endPos tags)
    · rcases char_cases ch with hch | hch | hch | hch | hch
      · subst hch
        rw [generateLoop_event_newline hevt]
        simp only [List.append_assoc, List.cons_append, List.nil_append]
        rw [balCheck_flush, balCheck_doEvent, balCheck_closes,
          balCheck_footer_nil, balCheck_header,
          balCheck_reopens (fun t ht => hs0' t (List.mem_reverse.mp ht))]
        rw [List.reverse_reverse, List.append_nil]
        exact ih (c + 1) [] (line + 1) _ _ hc' hs0' hsB' htB'
      · subst hch
        rw [generateLoop_event_amp hevt]
        simp only [List.append_assoc, List.cons_append, List.nil_append]
        rw [balCheck_flush, balCheck_doEvent, balCheck_entity]
        exact ih (c + 1) [] line _ _ hc' hs0' hsB' htB'
      · subst hch
        rw [generateLoop_event_lt hevt]
        simp only [List.append_assoc, List.cons_append, List.nil_append]
        rw [balCheck_flush, balCheck_doEvent, balCheck_entity]
        exact ih (c + 1) [] line _ _ hc' hs0' hsB' htB'
      · subst hch
        rw [generateLoop_event_gt hevt]
        simp only [List.append_assoc, List.cons_append, List.nil_append]
        rw [balCheck_flush, balCheck_doEvent, balCheck_entity]
        exact ih (c + 1) [] line _ _ hc' hs0' hsB' htB'
      · rw [generateLoop_event_plain hevt hch]
        simp only [List.append_assoc]
        rw [balCheck_flush, balCheck_doEvent]
        exact ih (c + 1) [ch] line _ _ hc' hs0' hsB' htB'
    · rcases char_cases ch with hch | hch | hch | hch | hch
      · subst hch
        rw [generateLoop_noevent_newline hevt]
        simp only [List.append_assoc, List.cons_append, List.nil_append]
        rw [balCheck_flush, balCheck_closes,
          balCheck_footer_nil, balCheck_header,
          balCheck_reopens (fun t ht => hs0 t (List.mem_reverse.mp ht))]
        rw [List.reverse_reverse, List.append_nil]
        exact ih (c + 1) [] (line + 1) tags stack hc' hs0 hsB htB
      · subst hch
        rw [generateLoop_noevent_amp hevt]
        simp only [List.append_assoc, List.cons_append, List.nil_append]
        rw [balCheck_flush, balCheck_entity]
        exact ih (c + 1) [] line tags stack hc' hs0 hsB htB
      · subst hch
        rw [generateLoop_noevent_lt hevt]
        simp only [List.append_assoc, List.cons_append, List.nil_append]
        rw [balCheck_flush, balCheck_entity]
        exact ih (c + 1) [] line tags stack hc' hs0 hsB htB
      · subst hch
        rw [generateLoop_noevent_gt hevt]
        simp only [List.append_assoc, List.cons_append, List.nil_append]
        rw [balCheck_flush, balCheck_entity]
        exact ih (c + 1) [] line tags stack hc' hs0 hsB htB
      · rw [generateLoop_noevent_plain hevt hch]
        exact ih (c + 1) (pending ++ [ch]) line tags stack hc' hs0 hsB htB

/-- C3: for every buffer and tag list whose tags end within the buffer, the
emitted open/close markup is properly balanced and properly nested: the
stack-based balance check returns an empty stack at the end of every line
container (the `lineFooter` clause of `balCheck`) and at the end of the
document, and every emitted close matches the most recently opened
not-yet-closed tag (the top-of-stack match in the `closeTag` clause). -/
theorem claim_C3 (buffer : List Char) (tags : List Tag) (cm cv : List Int)
    (hbound : ∀ t ∈ tags, t.pos + t.len ≤ buffer.length) :
    balCheck (generate buffer tags cm cv) [] = true := by
  simp only [generate]
  rw [balCheck_header]
  have h := @balCheck_loop buffer.length cm cv buffer 0 [] 1 tags []
    (by omega) (by simp) (by simp) hbound
  simpa using h

/-- Witness for C3 at a concrete input: a two-line buffer with two nested
tags, one of which crosses the line break. -/
theorem claim_C3_witness :
    (∀ t ∈ [Tag.mk "a" "x=y" 0 5, Tag.mk "b" "" 1 3],
      t.pos + t.len ≤ ("ab\ncd".data).length) ∧
    balCheck (generate "ab\ncd".data
      [Tag.mk "a" "x=y" 0 5, Tag.mk "b" "" 1 3] [] []) [] = true :=
  ⟨by decide, claim_C3 "ab\ncd".data
    [Tag.mk "a" "x=y" 0 5, Tag.mk "b" "" 1 3] [] [] (by decide)⟩

/-- C4: (1) the opening markup of a `length = 0` tag is self-closed — it is
the plain opening form followed immediately by the matching closing markup;
(2) a zero-length tag is never given a separate close emission anywhere in
any render (closes only ever name nonzero-length tags), so it is never
re-closed or re-opened at a line boundary; (3) concretely, a zero-length tag
sitting at a line boundary is emitted exactly once and never closed
separately, while a nonzero-length tag does get a separate close emission. -/
theorem claim_C4 :
    (∀ t : Tag, t.len = 0 →
      t.openText =
        ("<" ++ t.name ++
          (if t.attributes.isEmpty then "" else " " ++ t.attributes) ++ ">") ++
          t.closeText) ∧
    (∀ (buffer : List Char) (tags : List Tag) (cm cv : List Int) (t : Tag),
      OutItem.closeTag t ∈ generate buffer tags cm cv → t.len ≠ 0) ∧
    ((generate ['a', '\n', 'b'] [Tag.mk "i" "" 1 0] [] []).count
        (OutItem.openTag (Tag.mk "i" "" 1 0)) = 1 ∧
      (generate ['a', '\n', 'b'] [Tag.mk "i" "" 1 0] [] []).count
        (OutItem.closeTag (Tag.mk "i" "" 1 0)) = 0 ∧
      (generate ['a', 'b'] [Tag.mk "i" "" 0 2] [] []).count
        (OutItem.closeTag (Tag.mk "i" "" 0 2)) = 1) := by
  refine ⟨?_, ?_, by decide, by decide, by decide⟩
  · intro t h
    simp [Tag.openText, Tag.closeText, h, String.append_assoc]
    rw [show ("></" : String) = ">" ++ "</" from rfl, String.append_assoc]
  · intro buffer tags cm cv t h
    simp only [generate, List.mem_cons] at h
    rcases h with h | h
    · exact OutItem.noConfusion h
    · rcases mem_generateLoop_items buffer 0 [] 1 tags [] _ h with
        ⟨p, he, _, _⟩ | he | ⟨u, he, _⟩ | ⟨u, he, hu⟩ | ⟨n, he⟩ | he
      · exact OutItem.noConfusion he
      · rcases he with he | he | he <;> exact OutItem.noConfusion he
      · exact OutItem.noConfusion he
      · cases he with
        | refl =>
          rcases hu with hu | hu
          · simp at hu
          · exact hu.2
      · exact OutItem.noConfusion he
      · exact OutItem.noConfusion he

/-- Witness for C4 at concrete inputs: the self-closed open markup of a
zero-length tag, and a nonzero length concluded from a concrete close
emission. -/
theorem claim_C4_witness :
    (Tag.mk "span" "" 2 0).openText =
      ("<" ++ "span" ++
        (if ("" : String).isEmpty then "" else " " ++ "") ++ ">") ++
        (Tag.mk "span" "" 2 0).closeText ∧
    (Tag.mk "b" "" 0 2).len ≠ 0 :=
  ⟨claim_C4.1 (Tag.mk "span" "" 2 0) rfl,
   claim_C4.2.1 ['h', 'i'] [Tag.mk "b" "" 0 2] [] [] (Tag.mk "b" "" 0 2)
     (by decide)⟩

/-- C7: (1) every row header emitted anywhere in a render carries the
aquamarine primary style when its line number is in the common-lines set and
the lightcoral primary style when it is not, and carries the gold secondary
style exactly when its line number is in the covered-lines set; (2) the
first emitted item is always the row header of line 1, styled by classifying
line number 1; (3) the two primary styles are distinct alternatives. -/
theorem claim_C7 :
    (∀ (buffer : List Char) (tags : List Tag) (cm cv : List Int) (n : Nat)
      (s1 s2 : String),
      OutItem.lineHeader n s1 s2 ∈ generate buffer tags cm cv →
        (((n : Int) ∈ cm ∧ s1 = "style=\"background-color:aquamarine;\"") ∨
          ((n : Int) ∉ cm ∧ s1 = "style=\"background-color:lightcoral;\"")) ∧
        (s2 = "style=\"background-color:gold;\"" ↔ (n : Int) ∈ cv)) ∧
    (∀ (buffer : List Char) (tags : List Tag) (cm cv : List Int),
      (generate buffer tags cm cv).head? =
        some (OutItem.lineHeader 1 (lineStyle cm 1) (lineStyle2 cv 1))) ∧
    ("style=\"background-color:aquamarine;\"" : String) ≠
      "style=\"background-color:lightcoral;\"" := by
  refine ⟨?_, fun buffer tags cm cv => rfl, by decide⟩
  intro buffer tags cm cv n s1 s2 h
  have hstyles : s1 = lineStyle cm n ∧ s2 = lineStyle2 cv n := by
    simp only [generate, List.mem_cons] at h
    rcases h with h | h
    · obtain ⟨h1, h2, h3⟩ := OutItem.lineHeader.inj h
      subst h1
      exact ⟨h2, h3⟩
    · rcases mem_generateLoop_items buffer 0 [] 1 tags [] _ h with
        ⟨p, he, _, _⟩ | he | ⟨u, he, _⟩ | ⟨u, he, _⟩ | ⟨m, he⟩ | he
      · exact OutItem.noConfusion he
      · rcases he with he | he | he <;> exact OutItem.noConfusion he
      · exact OutItem.noConfusion he
      · exact OutItem.noConfusion he
      · obtain ⟨h1, h2, h3⟩ := OutItem.lineHeader.inj he
        subst h1
        exact ⟨h2, h3⟩
      · exact OutItem.noConfusion he
  obtain ⟨h1, h2⟩ := hstyles
  subst h1; subst h2
  constructor
  · by_cases hmem : (n : Int) ∈ cm
    · exact Or.inl ⟨hmem, by simp [lineStyle, hmem]⟩
    · exact Or.inr ⟨hmem, by simp [lineStyle, hmem]⟩
  · by_cases hmem : (n : Int) ∈ cv
    · simp [lineStyle2, hmem]
    · simp [lineStyle2, hmem]

/-- Witness for C7 at a concrete input (the spec's Scenario E): over a
two-line buffer with common lines `{2}` and covered lines `{1}`, the line-2
header carries the aquamarine primary style and no gold marker. -/
theorem claim_C7_witness :
    ((((2 : Nat) : Int) ∈ ([2] : List Int) ∧
        ("style=\"background-color:aquamarine;\"" : String) =
          "style=\"background-color:aquamarine;\"") ∨
      (((2 : Nat) : Int) ∉ ([2] : List Int) ∧
        ("style=\"background-color:aquamarine;\"" : String) =
          "style=\"background-color:lightcoral;\"")) ∧
    (("" : String) = "style=\"background-color:gold;\"" ↔
      ((2 : Nat) : Int) ∈ ([1] : List Int)) :=
  claim_C7.1 ['a', '\n', 'b'] [] [2] [1] 2
    "style=\"background-color:aquamarine;\"" "" (by decide)

/-- Scenario C at the item level: buffer `"hello"` with one tag
`{name: "span", start: 1, length: 3}`. -/
lemma singleTag_render_hello :
    generate "hello".data [Tag.mk "span" "" 1 3] [] [] =
      [OutItem.lineHeader 1 (lineStyle [] 1) (lineStyle2 [] 1),
       OutItem.raw ['h'], OutItem.openTag (Tag.mk "span" "" 1 3),
       OutItem.raw ['e', 'l', 'l'], OutItem.closeTag (Tag.mk "span" "" 1 3),
       OutItem.raw ['o'], OutItem.lineFooter] := by
  have e : "hello".data = ['h'] ++ ['e', 'l', 'l'] ++ ['o'] := rfl
  rw [e, singleTag_render ['h'] ['e', 'l', 'l'] ['o'] (Tag.mk "span" "" 1 3) [] []
    (by decide) (by decide) (by decide) rfl rfl (by decide)]
  simp [flushItems]

/-- Recognizer for row-header items. -/
def isLineHeader : OutItem → Bool
  | .lineHeader _ _ _ => true
  | _ => false

lemma countP_flush {p : List Char} :
    (flushItems p).countP isLineHeader = 0 := by
  unfold flushItems
  split
  · rfl
  · rfl

lemma countP_doEvent {c : Nat} {tags stack : List Tag} :
    ((doEvent c tags stack).1).countP isLineHeader = 0 := by
  rw [List.countP_eq_zero]
  intro it hit
  rcases mem_doEvent_items hit with ⟨t, _, he⟩ | ⟨t, _, he⟩ <;>
    simp [he, isLineHeader]

lemma countP_closes {stack : List Tag} :
    (stack.map OutItem.closeTag).countP isLineHeader = 0 := by
  rw [List.countP_eq_zero]
  intro it hit
  obtain ⟨t, _, he⟩ := List.mem_map.mp hit
  simp [← he, isLineHeader]

lemma countP_reopens {stack : List Tag} :
    (stack.reverse.map OutItem.openTag).countP isLineHeader = 0 := by
  rw [List.countP_eq_zero]
  intro it hit
  obtain ⟨t, _, he⟩ := List.mem_map.mp hit
  simp [← he, isLineHeader]

/-- The rendering loop emits exactly one row header per newline byte. -/
lemma countHeaders_loop {endPos : Nat} {cm cv : List Int} :
    ∀ (remaining : List Char) (c : Nat) (pending : List Char) (line : Nat)
      (tags stack : List Tag),
    (generateLoop endPos cm cv remaining c pending line tags stack).countP
      isLineHeader = remaining.count '\n' := by
  intro remaining
  induction remaining with
  | nil =>
    intro c pending line tags stack
    rw [generateLoop_nil]
    simp only [List.countP_append, countP_flush]
    have h0 : ((popCloses c stack).1).countP isLineHeader = 0 := by
      rw [List.countP_eq_zero]
      intro it hit
      obtain ⟨t, _, he⟩ := mem_popCloses_items hit
      simp [he, isLineHeader]
    rw [h0]
    simp [isLineHeader, List.count_nil]
  | cons ch rest ih =>
    intro c pending line tags stack
    by_cases hevt : c = min (stackEnd endPos stack) (nextStart endPos tags)
    · rcases char_cases ch with hch | hch | hch | hch | hch
      · subst hch
        rw [generateLoop_event_newline hevt]
        simp only [List.countP_append, countP_flush, countP_doEvent,
          countP_closes, countP_reopens, ih]
        rw [List.count_cons]
        simp [isLineHeader, List.countP_cons]
        omega
      · subst hch
        rw [generateLoop_event_amp hevt]
        simp only [List.countP_append, countP_flush, countP_doEvent, ih]
        rw [List.count_cons]
        simp [isLineHeader, List.countP_cons]
      · subst hch
        rw [generateLoop_event_lt hevt]
        simp only [List.countP_append, countP_flush, countP_doEvent, ih]
        rw [List.count_cons]
        simp [isLineHeader, List.countP_cons]
      · subst hch
        rw [generateLoop_event_gt hevt]
        simp only [List.countP_append, countP_flush, countP_doEvent, ih]
        rw [List.count_cons]
        simp [isLineHeader, List.countP_cons]
      · rw [generateLoop_event_plain hevt hch]
        simp only [List.countP_append, countP_flush, countP_doEvent, ih]
        rw [List.count_cons]
        have : ¬ (ch == '\n') = true := by
          have := (plainChar_spec hch).1
          simpa using this
        simp [this]
    · rcases char_cases ch with hch | hch | hch | hch | hch
      · subst hch
        rw [generateLoop_noevent_newline hevt]
        simp only [List.countP_append, countP_flush, countP_closes,
          countP_reopens, ih]
        rw [List.count_cons]
        simp [isLineHeader, List.countP_cons]
        omega
      · subst hch
        rw [generateLoop_noevent_amp hevt]
        simp only [List.countP_append, countP_flush, ih]
        rw [List.count_cons]
        simp [isLineHeader, List.countP_cons]
      · subst hch
        rw [generateLoop_noevent_lt hevt]
        simp only [List.countP_append, countP_flush, ih]
        rw [List.count_cons]
        simp [isLineHeader, List.countP_cons]
      · subst hch
        rw [generateLoop_noevent_gt hevt]
        simp only [List.countP_append, countP_flush, ih]
        rw [List.count_cons]
        simp [isLineHeader, List.countP_cons]
      · rw [generateLoop_noevent_plain hevt hch]
        rw [ih, List.count_cons]
        have : ¬ (ch == '\n') = true := by
          have := (plainChar_spec hch).1
          simpa using this
        simp [this]

/-- C10: (1) the number of emitted line containers is one more than the
number of `\n` bytes in the buffer, for every buffer and tag list — only the
byte 0x0A terminates a line; (2) concretely, a carriage return `\r` is not a
line terminator and is emitted into the line body unchanged, like every
other unreserved byte. -/
theorem claim_C10 :
    (∀ (buffer : List Char) (tags : List Tag) (cm cv : List Int),
      (generate buffer tags cm cv).countP isLineHeader =
        1 + buffer.count '\n') ∧
    generate ['a', '\r', 'b'] [] [] [] =
      [OutItem.lineHeader 1 (lineStyle [] 1) (lineStyle2 [] 1),
       OutItem.raw ['a', '\r', 'b'], OutItem.lineFooter] := by
  constructor
  · intro buffer tags cm cv
    simp only [generate, List.countP_cons]
    rw [countHeaders_loop buffer 0 [] 1 tags []]
    simp [isLineHeader]
    omega
  · decide

/-- Inverse of markup escaping: map each of the five entities back to its
character; other entity payloads are kept as-is. -/
def unent (e : String) : List Char :=
  if e = "&amp;" then ['&']
  else if e = "&lt;" then ['<']
  else if e = "&gt;" then ['>']
  else if e = "&quot;" then [Char.ofNat 34]
  else if e = "&apos;" then [Char.ofNat 39]
  else e.data

/-- Strip the markup from a rendered item list and un-escape the entities:
verbatim runs are kept, entities are mapped back to their characters, a line
boundary (a line footer followed by the next line header) becomes a newline
byte, and all tag markup and the remaining container markup is dropped. -/
def stripUnescape : List OutItem → List Char
  | [] => []
  | OutItem.raw s :: rest => s ++ stripUnescape rest
  | OutItem.entity e :: rest => unent e ++ stripUnescape rest
  | OutItem.lineFooter :: OutItem.lineHeader _ _ _ :: rest =>
      '\n' :: stripUnescape rest
  | OutItem.lineFooter :: rest => stripUnescape rest
  | OutItem.lineHeader _ _ _ :: rest => stripUnescape rest
  | OutItem.openTag _ :: rest => stripUnescape rest
  | OutItem.closeTag _ :: rest => stripUnescape rest

lemma strip_raw {s : List Char} {rest : List OutItem} :
    stripUnescape (OutItem.raw s :: rest) = s ++ stripUnescape rest := rfl

lemma strip_entity {e : String} {rest : List OutItem} :
    stripUnescape (OutItem.entity e :: rest) = unent e ++ stripUnescape rest := rfl

lemma strip_footer_header {n : Nat} {s1 s2 : String} {rest : List OutItem} :
    stripUnescape (OutItem.lineFooter :: OutItem.lineHeader n s1 s2 :: rest) =
      '\n' :: stripUnescape rest := rfl

lemma strip_footer_end : stripUnescape [OutItem.lineFooter] = [] := rfl

lemma strip_header {n : Nat} {s1 s2 : String} {rest : List OutItem} :
    stripUnescape (OutItem.lineHeader n s1 s2 :: rest) = stripUnescape rest := rfl

lemma strip_flush {p : List Char} {rest : List OutItem} :
    stripUnescape (flushItems p ++ rest) = p ++ stripUnescape rest := by
  unfold flushItems
  split
  · next h => simp [List.isEmpty_iff.mp h]
  · exact strip_raw

/-- With no tags the loop writes plain text, escapes and line boundaries
only; stripping and un-escaping recovers the pending window followed by the
remaining buffer. -/
lemma strip_loop {endPos : Nat} {cm cv : List Int} :
    ∀ (remaining : List Char) (c : Nat) (pending : List Char) (line : Nat),
    c + remaining.length = endPos →
    stripUnescape (generateLoop endPos cm cv remaining c pending line [] []) =
      pending ++ remaining := by
  intro remaining
  induction remaining with
  | nil =>
    intro c pending line _
    rw [generateLoop_nil]
    have : (popCloses c ([] : List Tag)).1 = [] := rfl
    rw [this, List.append_nil, strip_flush, strip_footer_end, List.append_nil]
  | cons ch rest ih =>
    intro c pending line hc
    have hlt : c < endPos := by
      simp only [List.length_cons] at hc; omega
    have hevt : c ≠ min (stackEnd endPos ([] : List Tag))
        (nextStart endPos ([] : List Tag)) := by
      simp only [stackEnd, nextStart, min_self]
      omega
    have hc' : c + 1 + rest.length = endPos := by
      simp only [List.length_cons] at hc; omega
    rcases char_cases ch with hch | hch | hch | hch | hch
    · subst hch
      rw [generateLoop_noevent_newline hevt]
      simp only [List.map_nil, List.reverse_nil, List.nil_append,
        List.append_nil, List.append_assoc, List.cons_append,
        List.singleton_append]
      rw [strip_flush, strip_footer_header, ih (c + 1) [] (line + 1) hc']
      simp
    · subst hch
      rw [generateLoop_noevent_amp hevt, List.append_assoc]
      rw [strip_flush, List.singleton_append, strip_entity,
        ih (c + 1) [] line hc']
      simp [unent]
    · subst hch
      rw [generateLoop_noevent_lt hevt, List.append_assoc]
      rw [strip_flush, List.singleton_append, strip_entity,
        ih (c + 1) [] line hc']
      simp [unent]
    · subst hch
      rw [generateLoop_noevent_gt hevt, List.append_assoc]
      rw [strip_flush, List.singleton_append, strip_entity,
        ih (c + 1) [] line hc']
      simp [unent]
    · rw [generateLoop_noevent_plain hevt hch, ih (c + 1) (pending ++ [ch]) line hc']
      simp

/-- C5: rendering a buffer with an empty tag list and then stripping the
markup and un-escaping the entities recovers exactly the original buffer,
with each newline byte corresponding to a line-container boundary (a footer
immediately followed by the next header). -/
theorem claim_C5 (buffer : List Char) (cm cv : List Int) :
    stripUnescape (generate buffer [] cm cv) = buffer := by
  simp only [generate]
  rw [strip_header, strip_loop buffer 0 [] 1 (by omega)]
  rfl

/-- C6: attribute-context escaping maps exactly the five reserved characters
`<`, `>`, `&`, `"` (0x22) and `'` (0x27) to their entities and every other
byte to itself; body-text escaping (the rendering loop's switch) maps
exactly `<`, `>`, `&` to entities and leaves every other non-newline byte —
including the two quote characters and non-ASCII bytes — unchanged in the
verbatim run. -/
theorem claim_C6 :
    (∀ c : Char, c ≠ '<' → c ≠ '>' → c ≠ '&' → c ≠ Char.ofNat 34 →
      c ≠ Char.ofNat 39 → escapeAttr [c] = [c]) ∧
    escapeAttr ['<'] = "&lt;".data ∧
    escapeAttr ['>'] = "&gt;".data ∧
    escapeAttr ['&'] = "&amp;".data ∧
    escapeAttr [Char.ofNat 34] = "&quot;".data ∧
    escapeAttr [Char.ofNat 39] = "&apos;".data ∧
    (∀ (ch : Char) (cm cv : List Int), plainChar ch = true →
      generate [ch] [] cm cv =
        [OutItem.lineHeader 1 (lineStyle cm 1) (lineStyle2 cv 1),
         OutItem.raw [ch], OutItem.lineFooter]) ∧
    (∀ cm cv : List Int, generate ['&'] [] cm cv =
      [OutItem.lineHeader 1 (lineStyle cm 1) (lineStyle2 cv 1),
       OutItem.entity "&amp;", OutItem.lineFooter]) ∧
    (∀ cm cv : List Int, generate ['<'] [] cm cv =
      [OutItem.lineHeader 1 (lineStyle cm 1) (lineStyle2 cv 1),
       OutItem.entity "&lt;", OutItem.lineFooter]) ∧
    (∀ cm cv : List Int, generate ['>'] [] cm cv =
      [OutItem.lineHeader 1 (lineStyle cm 1) (lineStyle2 cv 1),
       OutItem.entity "&gt;", OutItem.lineFooter]) := by
  have hne : ∀ ch : Char, (0 : Nat) ≠ min (stackEnd [ch].length ([] : List Tag))
      (nextStart [ch].length ([] : List Tag)) := by
    intro ch
    simp [stackEnd, nextStart]
  refine ⟨?_, rfl, rfl, rfl, rfl, rfl, ?_, ?_, ?_, ?_⟩
  · intro c h1 h2 h3 h4 h5
    simp [escapeAttr, escapeAttrChar, h1, h2, h3, h4, h5]
  · intro ch cm cv hch
    simp only [generate]
    rw [generateLoop_noevent_plain (hne ch) hch, generateLoop_nil]
    have hpop : (popCloses (0 + 1) ([] : List Tag)).1 = [] := rfl
    rw [hpop]
    simp [flushItems]
  · intro cm cv
    simp only [generate]
    rw [generateLoop_noevent_amp (hne '&'), generateLoop_nil]
    have hpop : (popCloses (0 + 1) ([] : List Tag)).1 = [] := rfl
    rw [hpop]
    simp [flushItems]
  · intro cm cv
    simp only [generate]
    rw [generateLoop_noevent_lt (hne '<'), generateLoop_nil]
    have hpop : (popCloses (0 + 1) ([] : List Tag)).1 = [] := rfl
    rw [hpop]
    simp [flushItems]
  · intro cm cv
    simp only [generate]
    rw [generateLoop_noevent_gt (hne '>'), generateLoop_nil]
    have hpop : (popCloses (0 + 1) ([] : List Tag)).1 = [] := rfl
    rw [hpop]
    simp [flushItems]

/-- Witness for C6 at concrete inputs: a non-ASCII byte (0xE9) passes
attribute escaping unchanged, and a double quote (0x22) is rendered
unchanged in a line body. -/
theorem claim_C6_witness :
    escapeAttr [Char.ofNat 233] = [Char.ofNat 233] ∧
    generate [Char.ofNat 34] [] [] [] =
      [OutItem.lineHeader 1 (lineStyle [] 1) (lineStyle2 [] 1),
       OutItem.raw [Char.ofNat 34], OutItem.lineFooter] :=
  ⟨claim_C6.1 (Char.ofNat 233) (by decide) (by decide) (by decide) (by decide)
      (by decide),
   claim_C6.2.2.2.2.2.2.1 (Char.ofNat 34) [] [] (by decide)⟩

/-- C8: loading a line-annotation set from a missing file (the stream fails
immediately) or from an empty file yields the empty set, for both the
common-lines and covered-lines loaders, with no error signalled; and
rendering with empty annotation sets styles every line with the absent
(lightcoral) primary style and no covered marker. -/
theorem claim_C8 :
    getCommonLines none = [] ∧
    getCommonLines (some "") = [] ∧
    getCoveredLines none = [] ∧
    getCoveredLines (some "") = [] ∧
    (∀ n : Nat, lineStyle [] n = "style=\"background-color:lightcoral;\"") ∧
    (∀ n : Nat, lineStyle2 [] n = "") := by
  refine ⟨rfl, rfl, rfl, rfl, ?_, ?_⟩
  · intro n; simp [lineStyle]
  · intro n; simp [lineStyle2]

lemma findLastSep_none {l : List Char} (h : ∀ ch ∈ l, isPathSep ch = false) :
    findLastSep l = none := by
  induction l with
  | nil => rfl
  | cons x xs ih =>
    simp only [findLastSep, ih (fun ch hch => h ch (by simp [hch]))]
    rw [if_neg]
    simp [h x (by simp)]

lemma findLastSep_append {base : List Char} {sep : Char}
    (hsep : isPathSep sep = true) (hbase : findLastSep base = none) :
    ∀ xs : List Char, findLastSep (xs ++ sep :: base) = some xs.length := by
  intro xs
  induction xs with
  | nil =>
    simp only [List.nil_append, findLastSep, hbase, if_pos hsep]
    rfl
  | cons x xs' ih =>
    simp only [List.cons_append, findLastSep, List.append_eq, ih,
      List.length_cons]

lemma exactFilename_append {base : List Char} {sep : Char} (xs : List Char)
    (hsep : isPathSep sep = true)
    (hbase : ∀ ch ∈ base, isPathSep ch = false) :
    exactFilename (xs ++ sep :: base) = base := by
  unfold exactFilename
  rw [findLastSep_append hsep (findLastSep_none hbase) xs]
  show List.drop (xs.length + 1) (xs ++ sep :: base) = base
  rw [show xs ++ sep :: base = (xs ++ [sep]) ++ base by simp]
  rw [show xs.length + 1 = (xs ++ [sep]).length by simp]
  exact List.drop_left (xs ++ [sep]) base

lemma exactFilename_nosep {base : List Char}
    (h : ∀ ch ∈ base, isPathSep ch = false) :
    exactFilename base = base := by
  unfold exactFilename
  rw [findLastSep_none h]

/-- C9: the sidecar annotation filenames depend only on the final path
component of the source filename — the substring after the last `/` or `\` —
with `.common` / `.coverage` appended and no directory prefix; two source
paths with the same basename therefore read the same sidecar files,
regardless of their directories. -/
theorem claim_C9 (d1 d2 base : List Char)
    (hbase : ∀ ch ∈ base, isPathSep ch = false) :
    commonSidecarName (d1 ++ '/' :: base) = base ++ ".common".data ∧
    commonSidecarName (d2 ++ '\\' :: base) = base ++ ".common".data ∧
    coverageSidecarName (d1 ++ '/' :: base) = base ++ ".coverage".data ∧
    coverageSidecarName (d2 ++ '\\' :: base) = base ++ ".coverage".data ∧
    commonSidecarName base = base ++ ".common".data ∧
    coverageSidecarName base = base ++ ".coverage".data := by
  have hs : isPathSep '/' = true := by simp [isPathSep]
  have hbs : isPathSep '\\' = true := by simp [isPathSep]
  refine ⟨?_, ?_, ?_, ?_, ?_, ?_⟩ <;>
    simp [commonSidecarName, coverageSidecarName,
      exactFilename_append d1 hs hbase, exactFilename_append d2 hbs hbase,
      exactFilename_nosep hbase]

/-- Witness for C9 at a concrete input: the same basename under two
different directories yields the same sidecar names. -/
theorem claim_C9_witness :
    commonSidecarName ("src/a".data ++ '/' :: "f.cpp".data) =
      "f.cpp".data ++ ".common".data ∧
    commonSidecarName ("dir".data ++ '\\' :: "f.cpp".data) =
      "f.cpp".data ++ ".common".data ∧
    coverageSidecarName ("src/a".data ++ '/' :: "f.cpp".data) =
      "f.cpp".data ++ ".coverage".data ∧
    coverageSidecarName ("dir".data ++ '\\' :: "f.cpp".data) =
      "f.cpp".data ++ ".coverage".data ∧
    commonSidecarName "f.cpp".data = "f.cpp".data ++ ".common".data ∧
    coverageSidecarName "f.cpp".data = "f.cpp".data ++ ".coverage".data :=
  claim_C9 "src/a".data "dir".data "f.cpp".data (by decide)

/-- Body-text escaping of one byte (the rendering loop's switch): the three
reserved characters become entities, every other byte stands for itself. -/
def escChar (c : Char) : String :=
  if c = '&' then "&amp;"
  else if c = '<' then "&lt;"
  else if c = '>' then "&gt;"
  else String.singleton c

/-- Concatenation of a list of markup strings. -/
def strJoin : List String → String
  | [] => ""
  | s :: rest => s ++ strJoin rest

/-- Position-structured reference rendering of a single-line body, written
from the specified event order rather than the loop's cursor/`min`
machinery: at each byte offset `i` it emits, in order, the closing markup of
every open tag whose range ends at `i` (innermost first), the opening markup
of every pending tag starting at `i` (in input order), and then the escaped
byte at `i`; at the end of the buffer it emits the closing markup of every
tag still open. `R` holds the pending tags sorted by start offset, `S` the
currently open tags, innermost first; a tag opening at `i` with nonzero
length becomes open (zero-length ones are emitted self-closed and never
become open). -/
def refBody : Nat → List Char → List Tag → List Tag → String
  | _, [], _, S => strJoin (S.map Tag.closeText)
  | i, ch :: rest, R, S =>
      strJoin ((S.filter (fun t => t.pos + t.len == i)).map Tag.closeText) ++
      strJoin ((R.filter (fun t => t.pos == i)).map Tag.openText) ++
      escChar ch ++
      refBody (i + 1) rest (R.filter (fun t => !(t.pos == i)))
        (((R.filter (fun t => t.pos == i)).filter
            (fun t => !(t.len == 0))).reverse ++
          S.filter (fun t => !(t.pos + t.len == i)))

/-- Invariant of the open-tag stack at cursor `c`: every open tag has
nonzero length and a range that is still open (`end ≥ c`) and in bounds, and
the stack is ordered innermost-first, so end offsets are nondecreasing from
the top. -/
def StackInv (endPos c : Nat) (S : List Tag) : Prop :=
  (∀ s ∈ S, s.len ≠ 0 ∧ c ≤ s.pos + s.len ∧ s.pos + s.len ≤ endPos) ∧
  S.Pairwise (fun a b => a.pos + a.len ≤ b.pos + b.len)

/-- Invariant of the pending tag list at cursor `c`: starts not yet reached
and in bounds, sorted by start offset, and well-nested (two tags are
disjoint or the later-starting one ends no later). -/
def TagsInv (endPos c : Nat) (R : List Tag) : Prop :=
  (∀ t ∈ R, c ≤ t.pos ∧ t.pos + t.len ≤ endPos) ∧
  R.Pairwise (fun a b => a.pos ≤ b.pos) ∧
  R.Pairwise (fun a b => a.pos + a.len ≤ b.pos ∨ b.pos + b.len ≤ a.pos + a.len)

/-- Well-nestedness across the two lists: a pending tag either fits inside
an open tag or starts only after it has ended. -/
def CrossInv (R S : List Tag) : Prop :=
  ∀ t ∈ R, ∀ s ∈ S, t.pos + t.len ≤ s.pos + s.len ∨ s.pos + s.len ≤ t.pos

lemma renderItems_append {A B : List OutItem} :
    renderItems (A ++ B) = renderItems A ++ renderItems B := by
  induction A with
  | nil => simp [renderItems]
  | cons it A' ih => simp [renderItems, ih, String.append_assoc]

lemma renderItems_closeMap : ∀ {S : List Tag},
    renderItems (S.map OutItem.closeTag) = strJoin (S.map Tag.closeText) := by
  intro S
  induction S with
  | nil => rfl
  | cons s S' ih => simp [renderItems, renderItem, strJoin, ih]

lemma renderItems_openMap : ∀ {S : List Tag},
    renderItems (S.map OutItem.openTag) = strJoin (S.map Tag.openText) := by
  intro S
  induction S with
  | nil => rfl
  | cons s S' ih => simp [renderItems, renderItem, strJoin, ih]

lemma renderItems_flush {p : List Char} :
    renderItems (flushItems p) = String.mk p := by
  unfold flushItems
  split
  · next h => simp [List.isEmpty_iff.mp h, renderItems]
  · simp [renderItems, renderItem]

lemma escChar_plain {ch : Char} (h : plainChar ch = true) :
    escChar ch = String.mk [ch] := by
  obtain ⟨_, h2, h3, h4⟩ := plainChar_spec h
  simp [escChar, h2, h3, h4]
  rfl

/-- Under the stack invariant, the close loop pops exactly the open tags
whose range ends at the cursor — which form the innermost prefix of the
stack. -/
lemma popCloses_filter {endPos c : Nat} :
    ∀ {S : List Tag}, StackInv endPos c S →
    popCloses c S =
      ((S.filter (fun t => t.pos + t.len == c)).map OutItem.closeTag,
        S.filter (fun t => !(t.pos + t.len == c))) := by
  intro S
  induction S with
  | nil => intro _; rfl
  | cons s S' ih =>
    intro hinv
    obtain ⟨hptw, hpw⟩ := hinv
    have hs := hptw s (by simp)
    have hpw' := List.pairwise_cons.mp hpw
    have hinv' : StackInv endPos c S' :=
      ⟨fun u hu => hptw u (by simp [hu]), hpw'.2⟩
    by_cases he : s.pos + s.len = c
    · have hle : s.pos + s.len ≤ c := by omega
      simp only [popCloses, if_pos hle, ih hinv']
      simp [he]
    · have hgt : c < s.pos + s.len := by omega
      have hnle : ¬ s.pos + s.len ≤ c := by omega
      simp only [popCloses, if_neg hnle]
      have hnil : S'.filter (fun t => t.pos + t.len == c) = [] := by
        rw [List.filter_eq_nil_iff]
        intro u hu
        have := hpw'.1 u hu
        simp only [beq_iff_eq]
        omega
      have hself : S'.filter (fun t => !(t.pos + t.len == c)) = S' := by
        rw [List.filter_eq_self]
        intro u hu
        have := hpw'.1 u hu
        simp only [Bool.not_eq_eq_eq_not, Bool.not_true, beq_eq_false_iff_ne]
        omega
      simp [he, hnil, hself]

/-- Under the pending-tags invariant, the open loop consumes exactly the
tags starting at the cursor — the sorted prefix — emitting their opens in
input order and pushing the nonzero-length ones innermost-last. -/
lemma processOpens_filter {endPos c : Nat} :
    ∀ {R : List Tag} (S1 : List Tag), TagsInv endPos c R →
    processOpens c R S1 =
      ((R.filter (fun t => t.pos == c)).map OutItem.openTag,
        R.filter (fun t => !(t.pos == c)),
        ((R.filter (fun t => t.pos == c)).filter
            (fun t => !(t.len == 0))).reverse ++ S1) := by
  intro R
  induction R with
  | nil => intro S1 _; rfl
  | cons t R' ih =>
    intro S1 hinv
    obtain ⟨hptw, hsort, hnest⟩ := hinv
    have hsort' := List.pairwise_cons.mp hsort
    have hinv' : TagsInv endPos c R' :=
      ⟨fun u hu => hptw u (by simp [hu]), hsort'.2,
        (List.pairwise_cons.mp hnest).2⟩
    by_cases hp : t.pos = c
    · by_cases hl : t.len ≠ 0
      · simp only [processOpens, if_pos hp, if_pos hl, ih (t :: S1) hinv']
        have hlb : ¬(t.len == 0) = true := by simpa using hl
        simp [hp, hlb, List.reverse_cons, List.append_assoc]
      · simp only [processOpens, if_pos hp, if_neg hl, ih S1 hinv']
        have hlb : (t.len == 0) = true := by simpa using hl
        simp [hp, hlb]
    · have hgt : ∀ u ∈ R', c < u.pos := by
        intro u hu
        have h1 := hsort'.1 u hu
        have h2 := (hptw t (by simp)).1
        have h3 := (hptw u (by simp [hu])).1
        omega
      have hcgt : c < t.pos := by
        have := (hptw t (by simp)).1
        omega
      simp only [processOpens, if_neg hp]
      have hnil : R'.filter (fun t => t.pos == c) = [] := by
        rw [List.filter_eq_nil_iff]
        intro u hu
        have := hgt u hu
        simp only [beq_iff_eq]
        omega
      have hself : R'.filter (fun t => !(t.pos == c)) = R' := by
        rw [List.filter_eq_self]
        intro u hu
        have := hgt u hu
        simp only [Bool.not_eq_eq_eq_not, Bool.not_true, beq_eq_false_iff_ne]
        omega
      simp [hp, hnil, hself]

/-- Under the pending-tags invariant the tags starting at the cursor are a
prefix: the list splits as that prefix followed by the rest. -/
lemma tags_split {endPos c : Nat} :
    ∀ {R : List Tag}, TagsInv endPos c R →
    R = R.filter (fun t => t.pos == c) ++ R.filter (fun t => !(t.pos == c)) := by
  intro R
  induction R with
  | nil => intro _; rfl
  | cons t R' ih =>
    intro hinv
    obtain ⟨hptw, hsort, hnest⟩ := hinv
    have hsort' := List.pairwise_cons.mp hsort
    have hinv' : TagsInv endPos c R' :=
      ⟨fun u hu => hptw u (by simp [hu]), hsort'.2,
        (List.pairwise_cons.mp hnest).2⟩
    by_cases hp : t.pos = c
    · simpa [hp] using ih hinv'
    · have hgt : ∀ u ∈ R', c < u.pos := by
        intro u hu
        have h1 := hsort'.1 u hu
        have h2 := (hptw t (by simp)).1
        omega
      have hnil : R'.filter (fun t => t.pos == c) = [] := by
        rw [List.filter_eq_nil_iff]
        intro u hu
        have := hgt u hu
        simp only [beq_iff_eq]
        omega
      have hself : R'.filter (fun t => !(t.pos == c)) = R' := by
        rw [List.filter_eq_self]
        intro u hu
        have := hgt u hu
        simp only [Bool.not_eq_eq_eq_not, Bool.not_true, beq_eq_false_iff_ne]
        omega
      simp [hp, hnil, hself]

/-- When the cursor is strictly before the next close boundary every open
tag ends strictly later. -/
lemma stack_ends_gt {endPos c : Nat} {S : List Tag} (hinv : StackInv endPos c S)
    (h : c < stackEnd endPos S) : ∀ s ∈ S, c < s.pos + s.len := by
  cases S with
  | nil => simp
  | cons s S' =>
    intro u hu
    rcases List.mem_cons.mp hu with hu | hu
    · subst hu; exact h
    · have := (List.pairwise_cons.mp hinv.2).1 u hu
      simp only [stackEnd] at h
      omega

/-- When the cursor is strictly before the next open boundary every pending
tag starts strictly later. -/
lemma tags_pos_gt {endPos c : Nat} {R : List Tag} (hinv : TagsInv endPos c R)
    (h : c < nextStart endPos R) : ∀ t ∈ R, c < t.pos := by
  cases R with
  | nil => simp
  | cons t R' =>
    intro u hu
    rcases List.mem_cons.mp hu with hu | hu
    · subst hu; exact h
    · have := (List.pairwise_cons.mp hinv.2.1).1 u hu
      simp only [nextStart] at h
      omega

/-- Loop/reference equivalence: on a newline-free buffer suffix, the
rendering loop's output text is the pending verbatim window followed by the
position-structured reference rendering, followed by the final line
footer — provided the stack, pending-tag and cross invariants hold. -/
lemma renderLoop_ref {endPos : Nat} {cm cv : List Int} :
    ∀ (remaining : List Char) (c : Nat) (pending : List Char) (line : Nat)
      (R S : List Tag),
    c + remaining.length = endPos →
    (∀ ch ∈ remaining, ch ≠ '\n') →
    StackInv endPos c S → TagsInv endPos c R → CrossInv R S →
    renderItems (generateLoop endPos cm cv remaining c pending line R S) =
      String.mk pending ++ refBody c remaining R S ++ "</td></tr>\n" := by
  intro remaining
  induction remaining with
  | nil =>
    intro c pending line R S hc _ hSinv _ _
    simp only [List.length_nil, Nat.add_zero] at hc
    have hall : ∀ s ∈ S, s.pos + s.len ≤ c := by
      intro s hs
      have := (hSinv.1 s hs).2.2
      omega
    rw [generateLoop_nil, popCloses_all hall, renderItems_append,
      renderItems_append, renderItems_flush, renderItems_closeMap]
    show _ = String.mk pending ++ strJoin (S.map Tag.closeText) ++ _
    simp [renderItems, renderItem, String.append_assoc]
  | cons ch rest ih =>
    intro c pending line R S hc hnl hSinv hRinv hXinv
    have hclt : c < endPos := by
      simp only [List.length_cons] at hc; omega
    have hc' : c + 1 + rest.length = endPos := by
      simp only [List.length_cons] at hc; omega
    have hnl' : ∀ x ∈ rest, x ≠ '\n' := fun x hx => hnl x (by simp [hx])
    have hchnl : ch ≠ '\n' := hnl ch (by simp)
    by_cases hevt : c = min (stackEnd endPos S) (nextStart endPos R)
    · -- event at the cursor: closes, then opens, then the byte
      have hdo : doEvent c R S =
          ((S.filter (fun t => t.pos + t.len == c)).map OutItem.closeTag ++
            (R.filter (fun t => t.pos == c)).map OutItem.openTag,
           R.filter (fun t => !(t.pos == c)),
           ((R.filter (fun t => t.pos == c)).filter
               (fun t => !(t.len == 0))).reverse ++
             S.filter (fun t => !(t.pos + t.len == c))) := by
        simp only [doEvent, popCloses_filter hSinv, processOpens_filter _ hRinv]
      have hS2 : StackInv endPos (c + 1)
          (((R.filter (fun t => t.pos == c)).filter
              (fun t => !(t.len == 0))).reverse ++
            S.filter (fun t => !(t.pos + t.len == c))) := by
        constructor
        · intro s hs
          rcases List.mem_append.mp hs with hs | hs
          · rw [List.mem_reverse] at hs
            obtain ⟨hsF, hlen⟩ := List.mem_filter.mp hs
            obtain ⟨hsR, hpos⟩ := List.mem_filter.mp hsF
            have h1 := hRinv.1 s hsR
            have h2 : s.pos = c := by simpa using hpos
            have h3 : s.len ≠ 0 := by simpa using hlen
            exact ⟨h3, by omega, h1.2⟩
          · obtain ⟨hsS, hend⟩ := List.mem_filter.mp hs
            have h1 := hSinv.1 s hsS
            have h2 : s.pos + s.len ≠ c := by simpa using hend
            exact ⟨h1.1, by omega, h1.2.2⟩
        · rw [List.pairwise_append]
          refine ⟨?_, (hSinv.2).sublist (List.filter_sublist S), ?_⟩
          · rw [List.pairwise_reverse]
            have hnest2 : ((R.filter (fun t => t.pos == c)).filter
                (fun t => !(t.len == 0))).Pairwise
                (fun a b => a.pos + a.len ≤ b.pos ∨
                  b.pos + b.len ≤ a.pos + a.len) :=
              ((hRinv.2.2).sublist (List.filter_sublist R)).sublist
                (List.filter_sublist _)
            refine List.Pairwise.imp_of_mem ?_ hnest2
            intro a b ha hb hab
            obtain ⟨haF, halen⟩ := List.mem_filter.mp ha
            obtain ⟨_, hapos⟩ := List.mem_filter.mp haF
            obtain ⟨hbF, hblen⟩ := List.mem_filter.mp hb
            obtain ⟨_, hbpos⟩ := List.mem_filter.mp hbF
            have h1 : a.pos = c := by simpa using hapos
            have h2 : b.pos = c := by simpa using hbpos
            have h3 : a.len ≠ 0 := by simpa using halen
            have h4 : b.len ≠ 0 := by simpa using hblen
            show b.pos + b.len ≤ a.pos + a.len
            omega
          · intro a ha b hb
            rw [List.mem_reverse] at ha
            obtain ⟨haF, halen⟩ := List.mem_filter.mp ha
            obtain ⟨haR, hapos⟩ := List.mem_filter.mp haF
            obtain ⟨hbS, hbend⟩ := List.mem_filter.mp hb
            have h1 : a.pos = c := by simpa using hapos
            have h2 : b.pos + b.len ≠ c := by simpa using hbend
            have h3 := (hSinv.1 b hbS).2.1
            rcases hXinv a haR b hbS with h | h
            · exact h
            · omega
      have hR' : TagsInv endPos (c + 1) (R.filter (fun t => !(t.pos == c))) := by
        refine ⟨?_, (hRinv.2.1).sublist (List.filter_sublist R),
          (hRinv.2.2).sublist (List.filter_sublist R)⟩
        intro t ht
        obtain ⟨htR, hpos⟩ := List.mem_filter.mp ht
        have h1 := hRinv.1 t htR
        have h2 : t.pos ≠ c := by simpa using hpos
        exact ⟨by omega, h1.2⟩
      have hX' : CrossInv (R.filter (fun t => !(t.pos == c)))
          (((R.filter (fun t => t.pos == c)).filter
              (fun t => !(t.len == 0))).reverse ++
            S.filter (fun t => !(t.pos + t.len == c))) := by
        intro t ht s hs
        obtain ⟨htR, htpos⟩ := List.mem_filter.mp ht
        rcases List.mem_append.mp hs with hs | hs
        · rw [List.mem_reverse] at hs
          obtain ⟨hsF, _⟩ := List.mem_filter.mp hs
          have hsplit := tags_split hRinv
          have hpairs := (List.pairwise_append.mp (hsplit ▸ hRinv.2.2)).2.2
          rcases hpairs s hsF t ht with h | h
          · exact Or.inr h
          · exact Or.inl h
        · obtain ⟨hsS, _⟩ := List.mem_filter.mp hs
          exact hXinv t htR s hsS
      rcases char_cases ch with hch | hch | hch | hch | hch
      · exact absurd hch hchnl
      · subst hch
        rw [generateLoop_event_amp hevt, hdo]
        simp only [renderItems_append, renderItems_flush, renderItems_closeMap,
          renderItems_openMap]
        rw [ih (c + 1) [] line _ _ hc' hnl' hS2 hR' hX']
        simp only [refBody]
        simp [renderItems, renderItem, escChar, String.append_assoc]
      · subst hch
        rw [generateLoop_event_lt hevt, hdo]
        simp only [renderItems_append, renderItems_flush, renderItems_closeMap,
          renderItems_openMap]
        rw [ih (c + 1) [] line _ _ hc' hnl' hS2 hR' hX']
        simp only [refBody]
        simp [renderItems, renderItem, escChar, String.append_assoc]
      · subst hch
        rw [generateLoop_event_gt hevt, hdo]
        simp only [renderItems_append, renderItems_flush, renderItems_closeMap,
          renderItems_openMap]
        rw [ih (c + 1) [] line _ _ hc' hnl' hS2 hR' hX']
        simp only [refBody]
        simp [renderItems, renderItem, escChar, String.append_assoc]
      · rw [generateLoop_event_plain hevt hch, hdo]
        simp only [renderItems_append, renderItems_flush, renderItems_closeMap,
          renderItems_openMap]
        rw [ih (c + 1) [ch] line _ _ hc' hnl' hS2 hR' hX']
        simp only [refBody]
        rw [escChar_plain hch]
        simp [String.append_assoc]
    · -- no event at the cursor: nothing closes or opens here
      have hle1 : c ≤ stackEnd endPos S := by
        cases S with
        | nil => simp only [stackEnd]; omega
        | cons s S' => exact (hSinv.1 s (by simp)).2.1
      have hle2 : c ≤ nextStart endPos R := by
        cases R with
        | nil => simp only [nextStart]; omega
        | cons t R' => exact (hRinv.1 t (by simp)).1
      have hlt : c < min (stackEnd endPos S) (nextStart endPos R) :=
        lt_of_le_of_ne (le_min hle1 hle2) hevt
      have hgt1 := stack_ends_gt hSinv (lt_of_lt_of_le hlt (min_le_left _ _))
      have hgt2 := tags_pos_gt hRinv (lt_of_lt_of_le hlt (min_le_right _ _))
      have hclose0 : S.filter (fun t => t.pos + t.len == c) = [] := by
        rw [List.filter_eq_nil_iff]
        intro s hs
        have := hgt1 s hs
        simp only [beq_iff_eq]
        omega
      have hopen0 : R.filter (fun t => t.pos == c) = [] := by
        rw [List.filter_eq_nil_iff]
        intro t ht
        have := hgt2 t ht
        simp only [beq_iff_eq]
        omega
      have hS1self : S.filter (fun t => !(t.pos + t.len == c)) = S := by
        rw [List.filter_eq_self]
        intro s hs
        have := hgt1 s hs
        simp only [Bool.not_eq_eq_eq_not, Bool.not_true, beq_eq_false_iff_ne]
        omega
      have hR'self : R.filter (fun t => !(t.pos == c)) = R := by
        rw [List.filter_eq_self]
        intro t ht
        have := hgt2 t ht
        simp only [Bool.not_eq_eq_eq_not, Bool.not_true, beq_eq_false_iff_ne]
        omega
      have hSinv' : StackInv endPos (c + 1) S := by
        refine ⟨?_, hSinv.2⟩
        intro s hs
        have h1 := hSinv.1 s hs
        have h2 := hgt1 s hs
        exact ⟨h1.1, by omega, h1.2.2⟩
      have hRinv' : TagsInv endPos (c + 1) R := by
        refine ⟨?_, hRinv.2.1, hRinv.2.2⟩
        intro t ht
        have h1 := hRinv.1 t ht
        have h2 := hgt2 t ht
        exact ⟨by omega, h1.2⟩
      have hrefstep : refBody c (ch :: rest) R S =
          escChar ch ++ refBody (c + 1) rest R S := by
        simp only [refBody, hclose0, hopen0, hS1self, hR'self]
        simp [strJoin]
      rcases char_cases ch with hch | hch | hch | hch | hch
      · exact absurd hch hchnl
      · subst hch
        rw [generateLoop_noevent_amp hevt]
        simp only [renderItems_append, renderItems_flush]
        rw [ih (c + 1) [] line R S hc' hnl' hSinv' hRinv' hXinv, hrefstep]
        simp [renderItems, renderItem, escChar, String.append_assoc]
      · subst hch
        rw [generateLoop_noevent_lt hevt]
        simp only [renderItems_append, renderItems_flush]
        rw [ih (c + 1) [] line R S hc' hnl' hSinv' hRinv' hXinv, hrefstep]
        simp [renderItems, renderItem, escChar, String.append_assoc]
      · subst hch
        rw [generateLoop_noevent_gt hevt]
        simp only [renderItems_append, renderItems_flush]
        rw [ih (c + 1) [] line R S hc' hnl' hSinv' hRinv' hXinv, hrefstep]
        simp [renderItems, renderItem, escChar, String.append_assoc]
      · rw [generateLoop_noevent_plain hevt hch]
        rw [ih (c + 1) (pending ++ [ch]) line R S hc' hnl' hSinv' hRinv' hXinv,
          hrefstep, escChar_plain hch]
        rw [show String.mk (pending ++ [ch]) =
          String.mk pending ++ String.mk [ch] from rfl]
        simp [String.append_assoc]

/-- C1: for every newline-free buffer and every sorted, well-nested,
in-bounds tag list, the rendered line body equals the position-structured
reference rendering: at each byte offset, the closing markup of tags ending
there (innermost first), then the opening markup of tags starting there (in
input order) — so each tag's opening markup lands immediately before the
escaped byte at its start offset and its closing markup immediately after
the escaped byte at offset `start + length - 1` — with every byte between
events passed through the body escaper. Scenario C (`"hello"` with tag
`{name: "span", start: 1, length: 3}` rendering as `h` + open + `ell` +
close + `o`) is the witness instance. -/
theorem claim_C1 (buffer : List Char) (tags : List Tag) (cm cv : List Int)
    (hnl : ∀ ch ∈ buffer, ch ≠ '\n')
    (hsorted : tags.Pairwise (fun a b => a.pos ≤ b.pos))
    (hnested : tags.Pairwise (fun a b =>
      a.pos + a.len ≤ b.pos ∨ b.pos + b.len ≤ a.pos + a.len))
    (hbound : ∀ t ∈ tags, t.pos + t.len ≤ buffer.length) :
    renderItems (generate buffer tags cm cv) =
      renderItem (OutItem.lineHeader 1 (lineStyle cm 1) (lineStyle2 cv 1)) ++
        refBody 0 buffer tags [] ++ "</td></tr>\n" := by
  simp only [generate, renderItems]
  rw [renderLoop_ref buffer 0 [] 1 tags [] (by omega) hnl
    ⟨by simp, by simp⟩
    ⟨fun t ht => ⟨Nat.zero_le _, hbound t ht⟩, hsorted, hnested⟩
    (fun t _ s hs => absurd hs (List.not_mem_nil s))]
  simp [String.append_assoc]

/-- Witness for C1 at the spec's Scenario C: the loop/reference equivalence
instantiated at buffer `"hello"` with tag `{name: "span", start: 1,
length: 3}`, whose rendered body is `h<span>ell</span>o`. -/
theorem claim_C1_witness :
    renderItems (generate "hello".data [Tag.mk "span" "" 1 3] [] []) =
      renderItem (OutItem.lineHeader 1 (lineStyle [] 1) (lineStyle2 [] 1)) ++
        refBody 0 "hello".data [Tag.mk "span" "" 1 3] [] ++ "</td></tr>\n" ∧
    renderItems (generate "hello".data [Tag.mk "span" "" 1 3] [] []) =
      "<tr style=\"background-color:lightcoral;\" ><th  id=\"1\">1</th><td>h<span>ell</span>o</td></tr>\n" :=
  ⟨claim_C1 "hello".data [Tag.mk "span" "" 1 3] [] [] (by decide) (by decide)
    (by decide) (by decide), by decide⟩

end Codebrowser
